import Mathlib

/-!
# Verification of the minesweeper-battle core

Shallow embedding of the battle engine of the `minesweeper-battle`
repository: the board engine (`src/lib/minesweeper.ts`), the scoring
function (`src/lib/scoring.ts`), and the ranking / turn-loop logic of
`src/lib/battleRunner.ts`.  JavaScript numbers that are used as 32-bit
quantities are modelled as `Nat` reduced `% 2^32`; integer-valued doubles
are modelled as `Int`/`Nat`; the exact rational value stands in for
floating-point arithmetic where the code divides (`random()/2^32`,
`safeRevealed/totalSafe`).
-/

namespace Minesweeper

/-- `GameConfig` from `src/lib/types.ts`: `{rows, cols, mineCount}`. -/
structure GameConfig where
  rows : Nat
  cols : Nat
  mineCount : Nat
deriving DecidableEq

/-- A `{row, col}` cell reference as passed for `excludedCell` /
`firstClick` (arbitrary integer-valued JS numbers). -/
structure CellRef where
  row : Int
  col : Int
deriving DecidableEq

/-- `2^32`, the modulus of all JS 32-bit bitwise coercions. -/
def UINT32 : Nat := 4294967296

/-- The mulberry32 increment `0x6d2b79f5` from `seededRandom`. -/
def mulberryDelta : Nat := 1831565813

/-- One output draw of the mulberry32 generator (`seededRandom` body in
`src/lib/minesweeper.ts`), on the 32-bit state `s % 2^32`.  JS signed
`Math.imul`/xor/shift results are represented by their unsigned 32-bit
bit patterns, which agree with the JS values modulo `2^32`. -/
def mulberry32 (s : Nat) : Nat :=
  let t := s % UINT32
  let t1 := ((t ^^^ (t >>> 15)) * (t ||| 1)) % UINT32
  let t2 := t1 ^^^ ((t1 + ((t1 ^^^ (t1 >>> 7)) * (t1 ||| 61)) % UINT32) % UINT32)
  t2 ^^^ (t2 >>> 14)

/-- The `k`-th (0-indexed) call of the closure returned by
`seededRandom(seed)`: the closure has incremented its accumulator `k+1`
times, so the state is `seed + (k+1) * 0x6d2b79f5` (exact double
addition for all call counts reachable here), coerced to 32 bits.  The
call returns the numerator `u` of `u / 2^32 ∈ [0, 1)`. -/
def randAt (seed : Int) (k : Nat) : Nat :=
  mulberry32 ((seed + ((k : Int) + 1) * (mulberryDelta : Int)).emod (UINT32 : Int)).toNat

/-- The JS destructuring swap `[a[i], a[j]] = [a[j], a[i]]` on a list;
identity when an index is out of bounds (never reached by the shuffle). -/
def listSwap (l : List α) (i j : Nat) : List α :=
  match l[i]?, l[j]? with
  | some a, some b => (l.set i b).set j a
  | _, _ => l

/-- The Fisher–Yates loop of `generateMinePositions`: index `i` runs
downward to `1`, `k` counts the random draws already consumed, and
`j = ⌊random() * (i+1)⌋` is modelled by exact rational arithmetic as
`u * (i+1) / 2^32`. -/
def fisherYatesAux (seed : Int) (k : Nat) (i : Nat) (l : List α) : List α :=
  match i with
  | 0 => l
  | i' + 1 =>
    let j := randAt seed k * (i' + 2) / UINT32
    fisherYatesAux seed (k + 1) i' (listSwap l (i' + 1) j)

/-- The full Fisher–Yates shuffle of `generateMinePositions`, seeded
with a fresh `seededRandom(seed)` closure. -/
def fisherYates (seed : Int) (l : List α) : List α :=
  fisherYatesAux seed 0 (l.length - 1) l

/-- The 3×3-neighborhood test of `generateMinePositions`:
`Math.abs(row - excludedCell.row) <= 1 && Math.abs(col - excludedCell.col) <= 1`. -/
def nearCell (e : CellRef) (row col : Nat) : Prop :=
  ((row : Int) - e.row).natAbs ≤ 1 ∧ ((col : Int) - e.col).natAbs ≤ 1

instance (e : CellRef) (row col : Nat) : Decidable (nearCell e row col) := by
  unfold nearCell; infer_instance

/-- The `allPositions` array built by the nested loops of
`generateMinePositions`: all `(row, col)` with `row < rows`,
`col < cols`, skipping the 3×3 block around `excludedCell` when given. -/
def allPositions (config : GameConfig) (exc : Option CellRef) : List (Nat × Nat) :=
  (List.range config.rows).flatMap fun row =>
    ((List.range config.cols).filter fun col =>
      match exc with
      | none => true
      | some e => !(decide (nearCell e row col))).map fun col => (row, col)

/-- `generateMinePositions(config, seed, excludedCell)` from
`src/lib/minesweeper.ts`: shuffle the legal positions with the seeded
Fisher–Yates and `slice(0, mineCount)`. -/
def generateMinePositions (config : GameConfig) (seed : Int)
    (exc : Option CellRef) : List (Nat × Nat) :=
  (fisherYates seed (allPositions config exc)).take config.mineCount

/-- `CellState` from `src/lib/types.ts`. -/
structure Cell where
  row : Nat
  col : Nat
  isMine : Bool
  isRevealed : Bool
  isFlagged : Bool
  adjacentMines : Nat
deriving DecidableEq

/-- `BoardState`: a row-major 2-D grid of cells. -/
abbrev BoardState := List (List Cell)

/-- Placeholder cell for out-of-bounds reads (never produced on the
in-bounds accesses the code performs). -/
def defaultCell : Cell := ⟨0, 0, false, false, false, 0⟩

/-- The JS read `board[r][c]` (as an `Option`). -/
def cellAt? (board : BoardState) (r c : Nat) : Option Cell :=
  (board[r]?).bind fun rowL => rowL[c]?

/-- The JS read `board[r][c]`, defaulted out of bounds. -/
def cellAt (board : BoardState) (r c : Nat) : Cell :=
  (cellAt? board r c).getD defaultCell

/-- The JS in-place field write `board[r][c].f = v`, as a functional
update; identity out of bounds. -/
def updateCell (board : BoardState) (r c : Nat) (f : Cell → Cell) : BoardState :=
  match board[r]? with
  | none => board
  | some rowL =>
    match rowL[c]? with
    | none => board
    | some cell => board.set r (rowL.set c (f cell))

/-- The fresh all-hidden grid allocated at the top of `createBoard`. -/
def emptyBoard (rows cols : Nat) : BoardState :=
  (List.range rows).map fun row => (List.range cols).map fun col =>
    ⟨row, col, false, false, false, 0⟩

/-- The `minePositions` loop of `createBoard`: set `isMine` at every
in-range listed position (out-of-range positions are skipped). -/
def placeMines (config : GameConfig) (board : BoardState)
    (minePositions : List (Nat × Nat)) : BoardState :=
  minePositions.foldl (fun b p =>
    if p.1 < config.rows ∧ p.2 < config.cols then
      updateCell b p.1 p.2 fun cell => { cell with isMine := true }
    else b) board

/-- The offset values `-1, 0, 1` iterated by the neighbor loops. -/
def offsets3 : List Int := [-1, 0, 1]

/-- The 8 neighbor offsets enumerated by the nested
`r_offset`/`c_offset` loops (the `(0,0)` pair is skipped). -/
def floodOffsets : List (Int × Int) :=
  (offsets3.flatMap fun dr => offsets3.map fun dc => (dr, dc)).filter fun d =>
    !(d.1 == 0 && d.2 == 0)

/-- The adjacent-mine count computed by `createBoard` for one cell:
the number of in-bounds neighbors with `isMine`.  (`createBoard`
mutates only `adjacentMines` during this phase, so reading `isMine`
from the pre-phase board is exactly the JS behaviour.) -/
def adjMineCount (board : BoardState) (rows cols : Nat) (row col : Nat) : Nat :=
  (floodOffsets.filter fun d =>
    let newRow := (row : Int) + d.1
    let newCol := (col : Int) + d.2
    decide (0 ≤ newRow) && decide (newRow < (rows : Int)) &&
      decide (0 ≤ newCol) && decide (newCol < (cols : Int)) &&
      (cellAt board newRow.toNat newCol.toNat).isMine).length

/-- The `adjacentMines` pass of `createBoard` (mine cells are skipped
and keep `adjacentMines = 0`). -/
def computeAdjacents (config : GameConfig) (board : BoardState) : BoardState :=
  board.mapIdx fun row rowL => rowL.mapIdx fun col cell =>
    if cell.isMine then cell
    else { cell with adjacentMines := adjMineCount board config.rows config.cols row col }

/-- `createBoard(config, firstClick, minePositions)` from
`src/lib/minesweeper.ts`, for the battle path in which `minePositions`
is supplied (the unseeded `Math.random()` fallback branch, used only
outside battle mode, is nondeterministic and is not embedded;
`firstClick` is unused on this branch). -/
def createBoard (config : GameConfig) (minePositions : List (Nat × Nat)) : BoardState :=
  computeAdjacents config (placeMines config (emptyBoard config.rows config.cols) minePositions)

/-- One bounds-and-visited check of the flood-fill enqueue loop: push
the neighbor and mark it visited when it is in bounds and fresh. -/
def enqueueStep (rows cols : Nat) (r c : Nat)
    (acc : List (Nat × Nat) × Finset (Nat × Nat)) (d : Int × Int) :
    List (Nat × Nat) × Finset (Nat × Nat) :=
  let newRow := (r : Int) + d.1
  let newCol := (c : Int) + d.2
  if 0 ≤ newRow ∧ newRow < (rows : Int) ∧ 0 ≤ newCol ∧ newCol < (cols : Int) ∧
      (newRow.toNat, newCol.toNat) ∉ acc.2 then
    (acc.1 ++ [(newRow.toNat, newCol.toNat)], insert (newRow.toNat, newCol.toNat) acc.2)
  else acc

/-- The full enqueue pass of `revealCell` over the 8 neighbor offsets.
The JS `visited` set of `"r,c"` strings is modelled as a
`Finset (Nat × Nat)` (the string key encodes the pair injectively). -/
def enqueueNeighbors (rows cols r c : Nat)
    (acc : List (Nat × Nat) × Finset (Nat × Nat)) :
    List (Nat × Nat) × Finset (Nat × Nat) :=
  floodOffsets.foldl (enqueueStep rows cols r c) acc

/-- The grid of all in-bounds positions, used as the termination
measure domain of the breadth-first loop. -/
def gridFinset (rows cols : Nat) : Finset (Nat × Nat) :=
  Finset.range rows ×ˢ Finset.range cols

/-- The `while (queue.length > 0)` loop of `revealCell`: dequeue, skip
if already revealed, otherwise reveal and count, and flood to fresh
in-bounds neighbors when `adjacentMines == 0`. -/
def bfsLoop (rows cols : Nat) (board : BoardState) (queue : List (Nat × Nat))
    (visited : Finset (Nat × Nat)) (count : Nat) : BoardState × Nat :=
  match queue with
  | [] => (board, count)
  | (r, c) :: rest =>
    let cell := cellAt board r c
    if cell.isRevealed then
      bfsLoop rows cols board rest visited count
    else
      let board' := updateCell board r c fun cl => { cl with isRevealed := true }
      if cell.adjacentMines = 0 then
        let qv := enqueueNeighbors rows cols r c (rest, visited)
        bfsLoop rows cols board' qv.1 qv.2 (count + 1)
      else
        bfsLoop rows cols board' rest visited (count + 1)
termination_by ((gridFinset rows cols \ visited).card, queue.length)
decreasing_by
  · apply Prod.Lex.right
    simp
  · have hmono : ∀ (ds : List (Int × Int)) (acc : List (Nat × Nat) × Finset (Nat × Nat)),
        acc.2 ⊆ (ds.foldl (enqueueStep rows cols r c) acc).2 := by
      intro ds
      induction ds with
      | nil => intro acc; simp
      | cons d ds ih =>
        intro acc
        refine Finset.Subset.trans ?_ (ih (enqueueStep rows cols r c acc d))
        unfold enqueueStep
        dsimp only
        split
        · exact Finset.subset_insert _ _
        · exact Finset.Subset.refl _
    have hprog : ∀ (ds : List (Int × Int)) (acc : List (Nat × Nat) × Finset (Nat × Nat)),
        ds.foldl (enqueueStep rows cols r c) acc = acc ∨
          (gridFinset rows cols \ (ds.foldl (enqueueStep rows cols r c) acc).2).card <
            (gridFinset rows cols \ acc.2).card := by
      intro ds
      induction ds with
      | nil => intro acc; exact Or.inl rfl
      | cons d ds ih =>
        intro acc
        rw [List.foldl_cons]
        by_cases hc : (0 ≤ (r : Int) + d.1 ∧ (r : Int) + d.1 < (rows : Int) ∧
            0 ≤ (c : Int) + d.2 ∧ (c : Int) + d.2 < (cols : Int) ∧
            (((r : Int) + d.1).toNat, ((c : Int) + d.2).toNat) ∉ acc.2)
        · right
          have hstep : enqueueStep rows cols r c acc d =
              (acc.1 ++ [(((r : Int) + d.1).toNat, ((c : Int) + d.2).toNat)],
               insert (((r : Int) + d.1).toNat, ((c : Int) + d.2).toNat) acc.2) := by
            unfold enqueueStep
            simp only [if_pos hc]
          have hxmem : (((r : Int) + d.1).toNat, ((c : Int) + d.2).toNat) ∈
              gridFinset rows cols \ acc.2 := by
            obtain ⟨h1, h2, h3, h4, h5⟩ := hc
            refine Finset.mem_sdiff.mpr ⟨?_, h5⟩
            refine Finset.mem_product.mpr ⟨?_, ?_⟩
            · exact Finset.mem_range.mpr (by omega)
            · exact Finset.mem_range.mpr (by omega)
          have hlt : (gridFinset rows cols \ (enqueueStep rows cols r c acc d).2).card <
              (gridFinset rows cols \ acc.2).card := by
            rw [hstep]
            have hsub : gridFinset rows cols \
                insert (((r : Int) + d.1).toNat, ((c : Int) + d.2).toNat) acc.2 ⊆
                gridFinset rows cols \ acc.2 := by
              refine Finset.sdiff_subset_sdiff (Finset.Subset.refl _) ?_
              exact Finset.subset_insert _ _
            refine Finset.card_lt_card ⟨hsub, fun hall => ?_⟩
            have := hall hxmem
            simp at this
          have hle : (gridFinset rows cols \
              (ds.foldl (enqueueStep rows cols r c) (enqueueStep rows cols r c acc d)).2).card ≤
              (gridFinset rows cols \ (enqueueStep rows cols r c acc d).2).card := by
            refine Finset.card_le_card ?_
            refine Finset.sdiff_subset_sdiff (Finset.Subset.refl _) ?_
            exact hmono ds (enqueueStep rows cols r c acc d)
          omega
        · have hstep : enqueueStep rows cols r c acc d = acc := by
            unfold enqueueStep
            simp only [if_neg hc]
          rw [hstep]
          exact ih acc
    rcases hprog floodOffsets (rest, visited) with h | h
    · have h1 : (enqueueNeighbors rows cols r c (rest, visited)).1 = rest := by
        rw [enqueueNeighbors, h]
      have h2 : (enqueueNeighbors rows cols r c (rest, visited)).2 = visited := by
        rw [enqueueNeighbors, h]
      rw [h1, h2]
      apply Prod.Lex.right
      simp
    · exact Prod.Lex.left _ _ h
  · apply Prod.Lex.right
    simp

/-- `revealCell(board, row, col)` from `src/lib/minesweeper.ts`:
returns the updated board together with `{revealedCount, hitMine}`. -/
def revealCell (board : BoardState) (row col : Nat) : BoardState × Nat × Bool :=
  let cell := cellAt board row col
  if cell.isRevealed || cell.isFlagged then
    (board, 0, false)
  else if cell.isMine then
    (updateCell board row col fun cl => { cl with isRevealed := true }, 1, true)
  else
    let rows := board.length
    let cols := (board.headD []).length
    let res := bfsLoop rows cols board [(row, col)] {(row, col)} 0
    (res.1, res.2, false)

/-- `flagCell(board, row, col)`: toggle the flag on unrevealed cells. -/
def flagCell (board : BoardState) (row col : Nat) : BoardState :=
  let cell := cellAt board row col
  if !cell.isRevealed then
    updateCell board row col fun cl => { cl with isFlagged := !cl.isFlagged }
  else board

/-- The visible value of a cell: a digit, `'F'`, `'H'`, or (only in
`encodeBoard`/`decodeBoard`) `'M'`. -/
inductive Vis where
  | num (n : Nat)
  | F
  | H
  | M
deriving DecidableEq

/-- `getVisibleBoard(board)`: revealed cells show `adjacentMines`,
flagged show `'F'`, hidden show `'H'`. -/
def getVisibleBoard (board : BoardState) : List (List Vis) :=
  board.map fun rowL => rowL.map fun cell =>
    if cell.isRevealed then Vis.num cell.adjacentMines
    else if cell.isFlagged then Vis.F
    else Vis.H

/-- The character(s) `encodeBoard` emits for one cell
(`String(cell.adjacentMines)` is its decimal digits). -/
def encodeCell (cell : Cell) : List Char :=
  if cell.isRevealed then
    if cell.isMine then ['M'] else Nat.toDigits 10 cell.adjacentMines
  else if cell.isFlagged then ['F']
  else ['H']

/-- `encodeBoard(board)`: per-row character strings joined by
newlines; a string is modelled as its character list. -/
def encodeBoard (board : BoardState) : List Char :=
  List.intercalate ['\n'] (board.map fun rowL => (rowL.map encodeCell).flatten)

/-- The per-character case analysis of `decodeBoard`
(`Number(char)` of a digit `'0'..'8'` is its value). -/
def decodeChar (ch : Char) : Vis :=
  if ch = 'M' then Vis.M
  else if ch = 'F' then Vis.F
  else if '0' ≤ ch ∧ ch ≤ '8' then Vis.num (ch.toNat - Char.toNat '0')
  else Vis.H

/-- `decodeBoard(encoded, rows, cols)`: split on newlines, then read
`rows × cols` characters with `'H'` defaults for anything missing. -/
def decodeBoard (encoded : List Char) (rows cols : Nat) : List (List Vis) :=
  let lines := encoded.splitOn '\n'
  (List.range rows).map fun rowIdx =>
    let line := lines.getD rowIdx []
    (List.range cols).map fun colIdx =>
      decodeChar (line.getD colIdx 'H')

/-- `GameOutcome` from `src/lib/types.ts`. -/
inductive GameOutcome where
  | playing
  | win
  | loss
  | stuck
  | error
deriving DecidableEq

/-- The parameter record of `calculateScore` (`src/lib/scoring.ts`). -/
structure ScoreParams where
  outcome : GameOutcome
  safeRevealed : Nat
  moves : Nat
  minesHit : Nat
  config : GameConfig

/-- JS `Math.round`: round half toward positive infinity. -/
def jsRound (q : ℚ) : Int := ⌊q + 1 / 2⌋

/-- `calculateScore` from `src/lib/scoring.ts`; the exact rational
value stands in for the double-precision arithmetic. -/
def calculateScore (p : ScoreParams) : Int :=
  let totalSafe : Int := (p.config.rows : Int) * (p.config.cols : Int) - (p.config.mineCount : Int)
  let safeFrac : ℚ := if 0 < totalSafe then (p.safeRevealed : ℚ) / (totalSafe : ℚ) else 0
  let score : ℚ :=
    if p.outcome = GameOutcome.win then 100 * safeFrac - (1 / 2) * ((p.moves : ℚ) - 1)
    else 100 * safeFrac - 50 * (p.minesHit : ℚ)
  max 0 (jsRound score)

/-- One entry of the `fullResults` list built by `runBattle`
(`src/lib/battleRunner.ts`). -/
structure GameResult where
  modelId : String
  outcome : GameOutcome
  score : Int
  moves : Nat
  durationMs : Nat
  safeRevealed : Nat
  totalSafe : Int
  minesHit : Nat
deriving DecidableEq

/-- The `outcomeOrder` table of the ranking comparator. -/
def outcomeOrder : GameOutcome → Nat
  | .win => 1
  | .stuck => 2
  | .loss => 3
  | .error => 4
  | .playing => 5

/-- The comparator function passed to `.sort` by `runBattle`. -/
def rankComparator (a b : GameResult) : Int :=
  if a.score ≠ b.score then b.score - a.score
  else if outcomeOrder a.outcome ≠ outcomeOrder b.outcome then
    (outcomeOrder a.outcome : Int) - (outcomeOrder b.outcome : Int)
  else if a.moves ≠ b.moves then (a.moves : Int) - (b.moves : Int)
  else (a.durationMs : Int) - (b.durationMs : Int)

/-- The ranking sort of `runBattle`: `Array.prototype.sort` is stable
(ES2019), so it is modelled by the stable `mergeSort` with
`a ≼ b ↔ comparator(a, b) ≤ 0`. -/
def sortRankings (l : List GameResult) : List GameResult :=
  l.mergeSort fun a b => decide (rankComparator a b ≤ 0)

/-- `'reveal' | 'flag'` move actions of the tool-call contract. -/
inductive MoveAction where
  | reveal
  | flag
deriving DecidableEq

/-- One requested move `{action, row, col}`. -/
structure MoveReq where
  action : MoveAction
  row : Nat
  col : Nat
deriving DecidableEq

/-- One response of the external agent collaborator for a turn:
no tool call at all, a `makeMove` call, or a `makeMoves` batch. -/
inductive AgentResponse where
  | noToolCall
  | makeMove (m : MoveReq)
  | makeMovesBatch (ms : List MoveReq)

/-- The mutable simulation state of `runModelSimulation`
(`board`, `moves`, `safeRevealed`, `outcome`, `minesHit`). -/
structure SimState where
  board : Option BoardState
  moves : Nat
  safeRevealed : Nat
  outcome : GameOutcome
  minesHit : Nat
deriving DecidableEq

/-- The initial simulation state of `runModelSimulation`. -/
def simInit : SimState := ⟨none, 0, 0, GameOutcome.playing, 0⟩

/-- Lazy board creation on the first named cell: `generateMinePositions`
with the move cell excluded, then `createBoard`. -/
def initBoard (config : GameConfig) (boardSeed : Int) (row col : Nat) : BoardState :=
  createBoard config (generateMinePositions config boardSeed (some ⟨(row : Int), (col : Int)⟩))

/-- The `makeMove` tool `execute` body: initializes the board if
needed, throws on an unavailable cell (second component `true`),
otherwise applies the move and counts it. -/
def executeMakeMove (config : GameConfig) (boardSeed : Int) (s : SimState)
    (m : MoveReq) : SimState × Bool :=
  let board := match s.board with
    | none => initBoard config boardSeed m.row m.col
    | some b => b
  let cell := cellAt board m.row m.col
  if cell.isRevealed || (m.action = MoveAction.reveal && cell.isFlagged) then
    ({ s with board := some board }, true)
  else
    match m.action with
    | .reveal =>
      let res := revealCell board m.row m.col
      (⟨some res.1, s.moves + 1, s.safeRevealed + res.2.1 - (if res.2.2 then 1 else 0),
        if res.2.2 then GameOutcome.loss else s.outcome,
        if res.2.2 then 1 else s.minesHit⟩, false)
    | .flag =>
      (⟨some (flagCell board m.row m.col), s.moves + 1, s.safeRevealed,
        s.outcome, s.minesHit⟩, false)

/-- The `for (const move of moveList)` loop of the `makeMoves` tool
`execute` body: returns the final state, the number of executed moves,
and the `stoppedEarly` flag.  It never throws. -/
def executeMakeMovesLoop (config : GameConfig) (boardSeed : Int) :
    SimState → List MoveReq → Nat → SimState × Nat × Bool
  | s, [], executed => (s, executed, false)
  | s, m :: rest, executed =>
    if s.outcome ≠ GameOutcome.playing then (s, executed, true)
    else
      let board := match s.board with
        | none => initBoard config boardSeed m.row m.col
        | some b => b
      let cell := cellAt board m.row m.col
      if cell.isRevealed || (m.action = MoveAction.reveal && cell.isFlagged) then
        ({ s with board := some board }, executed, true)
      else
        match m.action with
        | .reveal =>
          let res := revealCell board m.row m.col
          if res.2.2 then
            (⟨some res.1, s.moves + 1, s.safeRevealed, GameOutcome.loss, 1⟩,
             executed + 1, true)
          else
            executeMakeMovesLoop config boardSeed
              ⟨some res.1, s.moves + 1, s.safeRevealed + res.2.1, s.outcome, s.minesHit⟩
              rest (executed + 1)
        | .flag =>
          executeMakeMovesLoop config boardSeed
            ⟨some (flagCell board m.row m.col), s.moves + 1, s.safeRevealed,
              s.outcome, s.minesHit⟩
            rest (executed + 1)

/-- `MAX_RETRIES` from `src/lib/battleRunner.ts`. -/
def MAX_RETRIES : Nat := 3

/-- `MAX_MOVES` from `src/lib/battleRunner.ts`. -/
def MAX_MOVES : Nat := 60

/-- One attempt of the inner retry loop of `runModelSimulation` (the
`makeMoves` variant): process one agent response and return the new
simulation state, retry counter, and `moveSuccessful` flag.  A thrown
tool error or an empty tool-result list is caught and bumps `retries`
(setting `outcome = 'error'` when the cap is reached); a `makeMoves`
batch never throws and leaves `retries` untouched. -/
def attemptStep (config : GameConfig) (boardSeed : Int) (s : SimState)
    (retries : Nat) (resp : AgentResponse) : SimState × Nat × Bool :=
  match resp with
  | .noToolCall =>
    ({ s with outcome := if retries + 1 ≥ MAX_RETRIES then GameOutcome.error else s.outcome },
     retries + 1, false)
  | .makeMove m =>
    let r := executeMakeMove config boardSeed s m
    if r.2 then
      ({ r.1 with outcome := if retries + 1 ≥ MAX_RETRIES then GameOutcome.error else r.1.outcome },
       retries + 1, false)
    else (r.1, retries, true)
  | .makeMovesBatch ms =>
    let r := executeMakeMovesLoop config boardSeed s ms 0
    (r.1, retries, decide (0 < r.2.1))

/-- Reachability through the zero-adjacency region: `Reach B s q` holds
for the start cell `s` and for every in-bounds cell reachable from it
through chains of adjacent cells whose `adjacentMines` is `0` — i.e.
exactly the region of `s` together with its bordering cells. -/
inductive Reach (B : BoardState) (s : Nat × Nat) : Nat × Nat → Prop where
  | start : Reach B s s
  | step {p q : Nat × Nat} : Reach B s p → (cellAt B p.1 p.2).adjacentMines = 0 →
      p ≠ q → ((p.1 : Int) - (q.1 : Int)).natAbs ≤ 1 →
      ((p.2 : Int) - (q.2 : Int)).natAbs ≤ 1 →
      q.1 < B.length → q.2 < (B.headD []).length → Reach B s q

/-- A board is rectangular with the given dimensions. -/
def rectBoard (board : BoardState) (rows cols : Nat) : Prop :=
  board.length = rows ∧ ∀ rowL ∈ board, rowL.length = cols

/-- A board's stored `adjacentMines` are consistent: every in-bounds
non-mine cell stores the true count of adjacent mines (mine cells are
skipped by `createBoard` and may store anything). -/
def consistentBoard (board : BoardState) (rows cols : Nat) : Prop :=
  ∀ r c : Nat, r < rows → c < cols → (cellAt board r c).isMine = false →
    (cellAt board r c).adjacentMines = adjMineCount board rows cols r c

/-- The frame relation of a reveal operation: `b'` has the same
dimensions as `b` and every cell of `b'` equals the corresponding cell
of `b` except possibly for `isRevealed`, which may only move from
`false` to `true`. -/
def boardFrame (b b' : BoardState) : Prop :=
  b'.length = b.length ∧
    (∀ i : Nat, (b'[i]?).map List.length = (b[i]?).map List.length) ∧
    ∀ r c : Nat, ∀ cell : Cell, cellAt? b r c = some cell →
      ∃ rv : Bool, cellAt? b' r c = some { cell with isRevealed := rv } ∧
        (cell.isRevealed = true → rv = true)

/-- The single character `encodeBoard` emits for a cell with
`adjacentMines ≤ 8` (the `CellState` data-model invariant). -/
def encodeCellChar (cell : Cell) : Char :=
  if cell.isRevealed then
    if cell.isMine then 'M' else Nat.digitChar cell.adjacentMines
  else if cell.isFlagged then 'F'
  else 'H'

/-- A concrete 1×3 mine-free all-zero board whose middle cell is
already revealed, used to exhibit the flood-fill blocking behaviour of
`revealCell` on such a state. -/
def blockedBoard : BoardState :=
  [[⟨0, 0, false, false, false, 0⟩, ⟨0, 1, false, true, false, 0⟩,
    ⟨0, 2, false, false, false, 0⟩]]

/-! ## Lemmas about the seeded shuffle -/

theorem cons_set_perm {α : Type _} : ∀ (xs : List α) (m : Nat) (a b : α),
    xs[m]? = some b → (b :: xs.set m a).Perm (a :: xs) := by
  intro xs
  induction xs with
  | nil => intro m a b h; simp at h
  | cons y ys ih =>
    intro m a b h
    cases m with
    | zero =>
      simp only [List.getElem?_cons_zero, Option.some.injEq] at h
      subst h
      show (y :: a :: ys).Perm (a :: y :: ys)
      exact List.Perm.swap a y ys
    | succ k =>
      simp only [List.getElem?_cons_succ] at h
      show (b :: y :: ys.set k a).Perm (a :: y :: ys)
      have h1 : (b :: y :: ys.set k a).Perm (y :: b :: ys.set k a) :=
        List.Perm.swap y b (ys.set k a)
      have h2 : (y :: b :: ys.set k a).Perm (y :: a :: ys) := (ih k a b h).cons y
      have h3 : (y :: a :: ys).Perm (a :: y :: ys) := List.Perm.swap a y ys
      exact (h1.trans h2).trans h3

theorem set_set_perm {α : Type _} : ∀ (l : List α) (i j : Nat) (a b : α),
    l[i]? = some a → l[j]? = some b → ((l.set i b).set j a).Perm l := by
  intro l
  induction l with
  | nil => intro i j a b h; simp at h
  | cons x xs ih =>
    intro i j a b hi hj
    cases i with
    | zero =>
      simp only [List.getElem?_cons_zero, Option.some.injEq] at hi
      subst hi
      cases j with
      | zero =>
        simp only [List.getElem?_cons_zero, Option.some.injEq] at hj
        subst hj
        show (x :: xs).Perm (x :: xs)
        exact List.Perm.refl _
      | succ k =>
        simp only [List.getElem?_cons_succ] at hj
        show (b :: xs.set k x).Perm (x :: xs)
        exact cons_set_perm xs k x b hj
    | succ m =>
      cases j with
      | zero =>
        simp only [List.getElem?_cons_zero, Option.some.injEq] at hj
        subst hj
        simp only [List.getElem?_cons_succ] at hi
        show (a :: xs.set m x).Perm (x :: xs)
        exact cons_set_perm xs m x a hi
      | succ k =>
        simp only [List.getElem?_cons_succ] at hi hj
        show (x :: (xs.set m b).set k a).Perm (x :: xs)
        exact (ih m k a b hi hj).cons x

theorem listSwap_perm {α : Type _} (l : List α) (i j : Nat) :
    (listSwap l i j).Perm l := by
  unfold listSwap
  cases hi : l[i]? with
  | none => exact List.Perm.refl _
  | some a =>
    cases hj : l[j]? with
    | none => exact List.Perm.refl _
    | some b => exact set_set_perm l i j a b hi hj

theorem fisherYatesAux_perm {α : Type _} (seed : Int) : ∀ (i k : Nat) (l : List α),
    (fisherYatesAux seed k i l).Perm l := by
  intro i
  induction i with
  | zero => intro k l; exact List.Perm.refl _
  | succ i' ih =>
    intro k l
    show (fisherYatesAux seed (k + 1) i'
      (listSwap l (i' + 1) (randAt seed k * (i' + 2) / UINT32))).Perm l
    exact (ih (k + 1) _).trans (listSwap_perm l (i' + 1) _)

theorem fisherYates_perm {α : Type _} (seed : Int) (l : List α) :
    (fisherYates seed l).Perm l :=
  fisherYatesAux_perm seed (l.length - 1) 0 l

theorem allPositions_nodup (config : GameConfig) (exc : Option CellRef) :
    (allPositions config exc).Nodup := by
  unfold allPositions
  rw [List.nodup_flatMap]
  constructor
  · intro row _
    refine List.Nodup.map ?_ (List.Nodup.filter _ (List.nodup_range _))
    intro a b hab
    simpa using congrArg Prod.snd hab
  · refine List.Pairwise.imp ?_ (List.pairwise_lt_range config.rows)
    intro r1 r2 hlt p hp1 hp2
    simp only [List.mem_map, List.mem_filter] at hp1 hp2
    obtain ⟨c1, _, hpc1⟩ := hp1
    obtain ⟨c2, _, hpc2⟩ := hp2
    have : r1 = r2 := by
      have e1 := congrArg Prod.fst hpc1
      have e2 := congrArg Prod.fst hpc2
      simp at e1 e2
      omega
    omega

theorem generateMinePositions_mem_allPositions {config : GameConfig} {seed : Int}
    {exc : Option CellRef} {p : Nat × Nat}
    (hp : p ∈ generateMinePositions config seed exc) : p ∈ allPositions config exc := by
  unfold generateMinePositions at hp
  exact (fisherYates_perm seed (allPositions config exc)).mem_iff.mp
    (List.mem_of_mem_take hp)

/-! ## Claim theorems: mine generation -/

/-- C1, counterexample: for the valid config `rows = 2, cols = 2,
`mineCount = 3 < 4`, seed `0`, and `excludedCell = (0,0)` (whose 3×3
neighborhood covers the whole 2×2 board), `generateMinePositions`
returns fewer than `mineCount` positions. -/
theorem generateMinePositions_count_cex :
    ¬ ((generateMinePositions ⟨2, 2, 3⟩ 0 (some ⟨0, 0⟩)).length = 3) := by
  decide

/-- C1 (amended): for every `GameConfig`, every integer seed and every
optional `excludedCell`, whenever `mineCount` does not exceed the
number of legal cells (all cells outside the 3×3 neighborhood of
`excludedCell` when one is given — always the case for a valid config
with no `excludedCell`), `generateMinePositions` returns exactly
`mineCount` distinct positions. -/
theorem generateMinePositions_count (config : GameConfig) (seed : Int)
    (exc : Option CellRef)
    (h : config.mineCount ≤ (allPositions config exc).length) :
    (generateMinePositions config seed exc).length = config.mineCount ∧
      (generateMinePositions config seed exc).Nodup := by
  have hperm := fisherYates_perm seed (allPositions config exc)
  constructor
  · unfold generateMinePositions
    rw [List.length_take, hperm.length_eq]
    omega
  · exact List.Nodup.sublist (List.take_sublist _ _)
      (hperm.nodup_iff.mpr (allPositions_nodup config exc))

/-- Witness for C1 (amended) at the concrete valid config 2×2 with one
mine, seed 7, and no excluded cell. -/
theorem generateMinePositions_count_witness :
    (⟨2, 2, 1⟩ : GameConfig).mineCount ≤ (allPositions ⟨2, 2, 1⟩ none).length ∧
      ((generateMinePositions ⟨2, 2, 1⟩ 7 none).length = (⟨2, 2, 1⟩ : GameConfig).mineCount ∧
        (generateMinePositions ⟨2, 2, 1⟩ 7 none).Nodup) :=
  ⟨by decide, generateMinePositions_count ⟨2, 2, 1⟩ 7 none (by decide)⟩

/-! ## Board access lemmas -/

theorem cellAt?_updateCell_ne (b : BoardState) (r' c' r c : Nat) (f : Cell → Cell)
    (h : ¬(r' = r ∧ c' = c)) : cellAt? (updateCell b r' c' f) r c = cellAt? b r c := by
  unfold updateCell
  cases hb : b[r']? with
  | none => rfl
  | some rowL =>
    dsimp only
    cases hrow : rowL[c']? with
    | none => rfl
    | some cell =>
      dsimp only
      unfold cellAt?
      by_cases hr : r' = r
      · subst hr
        have hc : c' ≠ c := fun hcc => h ⟨rfl, hcc⟩
        obtain ⟨hlen, -⟩ := List.getElem?_eq_some_iff.mp hb
        rw [List.getElem?_set_self hlen, hb]
        simp only [Option.some_bind]
        exact List.getElem?_set_ne hc
      · rw [List.getElem?_set_ne hr]

theorem cellAt?_updateCell_self (b : BoardState) (r c : Nat) (f : Cell → Cell)
    (cell : Cell) (h : cellAt? b r c = some cell) :
    cellAt? (updateCell b r c f) r c = some (f cell) := by
  unfold cellAt? at h
  cases hb : b[r]? with
  | none => rw [hb] at h; simp at h
  | some rowL =>
    rw [hb] at h
    simp only [Option.some_bind] at h
    unfold updateCell cellAt?
    rw [hb]
    dsimp only
    rw [h]
    dsimp only
    obtain ⟨hrlen, -⟩ := List.getElem?_eq_some_iff.mp hb
    obtain ⟨hclen, -⟩ := List.getElem?_eq_some_iff.mp h
    rw [List.getElem?_set_self hrlen]
    simp only [Option.some_bind]
    rw [List.getElem?_set_self hclen]

theorem cellAt_updateCell_ne (b : BoardState) (r' c' r c : Nat) (f : Cell → Cell)
    (h : ¬(r' = r ∧ c' = c)) : cellAt (updateCell b r' c' f) r c = cellAt b r c := by
  unfold cellAt
  rw [cellAt?_updateCell_ne b r' c' r c f h]

theorem cellAt_emptyBoard_isMine (rows cols r c : Nat) :
    (cellAt (emptyBoard rows cols) r c).isMine = false := by
  unfold cellAt cellAt? emptyBoard
  simp only [List.getElem?_map]
  cases hr : (List.range rows)[r]? with
  | none => rfl
  | some v =>
    simp only [Option.map_some', Option.some_bind, List.getElem?_map]
    cases hc : (List.range cols)[c]? with
    | none => rfl
    | some w => rfl

theorem placeMines_isMine_of_not_mem (config : GameConfig) :
    ∀ (ps : List (Nat × Nat)) (b : BoardState) (r c : Nat), (r, c) ∉ ps →
      (cellAt (placeMines config b ps) r c).isMine = (cellAt b r c).isMine := by
  intro ps
  induction ps with
  | nil => intro b r c _; rfl
  | cons p ps ih =>
    intro b r c h
    have hcons : placeMines config b (p :: ps) =
        placeMines config
          (if p.1 < config.rows ∧ p.2 < config.cols then
            updateCell b p.1 p.2 (fun cell => { cell with isMine := true })
          else b) ps := by
      unfold placeMines
      rw [List.foldl_cons]
    rw [hcons]
    have hne : p ≠ (r, c) := fun hp => h (hp ▸ List.mem_cons_self p ps)
    have hne2 : ¬(p.1 = r ∧ p.2 = c) := by
      intro ⟨h1, h2⟩
      exact hne (Prod.ext h1 h2)
    have hps : (r, c) ∉ ps := fun hp => h (List.mem_cons_of_mem p hp)
    rw [ih _ r c hps]
    split
    · rw [cellAt_updateCell_ne b p.1 p.2 r c _ hne2]
    · rfl

theorem cellAt_computeAdjacents_isMine (config : GameConfig) (b : BoardState)
    (r c : Nat) :
    (cellAt (computeAdjacents config b) r c).isMine = (cellAt b r c).isMine := by
  unfold cellAt cellAt? computeAdjacents
  simp only [List.getElem?_mapIdx]
  cases hb : b[r]? with
  | none => rfl
  | some rowL =>
    simp only [Option.map_some', Option.some_bind, List.getElem?_mapIdx]
    cases hc : rowL[c]? with
    | none => rfl
    | some cell =>
      simp only [Option.map_some', Option.getD_some]
      split <;> rfl

/-- C7: for every config, seed and given `excludedCell`, no returned
mine position lies in the 3×3 neighborhood of `excludedCell`, and the
board created from those positions has `isMine = false` at the
first-clicked cell and all its neighbors. -/
theorem generateMinePositions_excluded (config : GameConfig) (seed : Int) (e : CellRef) :
    (∀ p ∈ generateMinePositions config seed (some e), ¬ nearCell e p.1 p.2) ∧
      (∀ r c : Nat, nearCell e r c →
        (cellAt (createBoard config (generateMinePositions config seed (some e))) r c).isMine
          = false) := by
  have hmem : ∀ p ∈ generateMinePositions config seed (some e), ¬ nearCell e p.1 p.2 := by
    intro p hp
    have hall := generateMinePositions_mem_allPositions hp
    unfold allPositions at hall
    simp only [List.mem_flatMap, List.mem_map, List.mem_filter] at hall
    obtain ⟨row, _, col, ⟨_, hfilter⟩, hpe⟩ := hall
    subst hpe
    simpa using hfilter
  refine ⟨hmem, ?_⟩
  intro r c hnear
  unfold createBoard
  rw [cellAt_computeAdjacents_isMine]
  rw [placeMines_isMine_of_not_mem config _ _ r c ?_]
  · exact cellAt_emptyBoard_isMine config.rows config.cols r c
  · intro hin
    exact hmem (r, c) hin hnear

/-- Witness for C7 at config 3×3 with one mine, seed 0 and excluded
cell `(0,0)`: the generated position `(2,2)` is outside the 3×3
neighborhood, and the created board has no mine at the neighbor
`(0,1)`. -/
theorem generateMinePositions_excluded_witness :
    ¬ nearCell ⟨0, 0⟩ 2 2 ∧
      (cellAt (createBoard ⟨3, 3, 1⟩ (generateMinePositions ⟨3, 3, 1⟩ 0 (some ⟨0, 0⟩))) 0 1).isMine
        = false :=
  ⟨(generateMinePositions_excluded ⟨3, 3, 1⟩ 0 ⟨0, 0⟩).1 (2, 2) (by decide),
   (generateMinePositions_excluded ⟨3, 3, 1⟩ 0 ⟨0, 0⟩).2 0 1 (by decide)⟩

/-- C4: `generateMinePositions` is a pure function of
`(config, seed, excludedCell)` alone — the `seededRandom(seed)` stream
it consumes is fully determined by the integer seed — so two calls
with identical arguments return identical position lists. -/
theorem generateMinePositions_deterministic (config : GameConfig) (seed : Int)
    (exc : Option CellRef) :
    generateMinePositions config seed exc = generateMinePositions config seed exc := rfl

/-! ## Scoring -/

/-- C3: `calculateScore` (whose embedding is literally
`max 0 (round (100·safeRatio − 0.5·(moves−1)))` for a win and
`max 0 (round (100·safeRatio − 50·minesHit))` otherwise, with
`safeRatio = safeRevealed/totalSafe` and `0` when `totalSafe ≤ 0`)
always returns a non-negative integer, returns `96` on the winning
example and `0` on the losing example pinned by the spec. -/
theorem calculateScore_spec :
    (∀ p : ScoreParams, 0 ≤ calculateScore p) ∧
      calculateScore ⟨GameOutcome.win, 71, 10, 0, ⟨9, 9, 10⟩⟩ = 96 ∧
      calculateScore ⟨GameOutcome.loss, 30, 5, 1, ⟨9, 9, 10⟩⟩ = 0 := by
  refine ⟨fun p => ?_, ?_, ?_⟩
  · unfold calculateScore
    exact le_max_left _ _
  · norm_num [calculateScore, jsRound]
  · norm_num [calculateScore, jsRound]
    rw [if_neg (by decide)]
    have hfl : (-(550 / 71 : ℚ) + 1 / 2) ≤ 0 := by norm_num
    exact le_trans (Int.floor_le_floor hfl) (le_of_eq Int.floor_zero)

/-! ## Ranking -/

theorem rankComparator_le_iff (a b : GameResult) :
    rankComparator a b ≤ 0 ↔
      (b.score < a.score ∨ (a.score = b.score ∧
        (outcomeOrder a.outcome < outcomeOrder b.outcome ∨
          (outcomeOrder a.outcome = outcomeOrder b.outcome ∧
            (a.moves < b.moves ∨ (a.moves = b.moves ∧
              a.durationMs ≤ b.durationMs)))))) := by
  unfold rankComparator
  split_ifs <;> omega

theorem rankComparator_trans (a b c : GameResult)
    (hab : decide (rankComparator a b ≤ 0) = true)
    (hbc : decide (rankComparator b c ≤ 0) = true) :
    decide (rankComparator a c ≤ 0) = true := by
  rw [decide_eq_true_eq, rankComparator_le_iff] at hab hbc ⊢
  omega

theorem rankComparator_total (a b : GameResult) :
    (decide (rankComparator a b ≤ 0) || decide (rankComparator b a ≤ 0)) = true := by
  rw [Bool.or_eq_true, decide_eq_true_eq, decide_eq_true_eq,
    rankComparator_le_iff, rankComparator_le_iff]
  omega

theorem sortRankings_pair (r1 r2 : GameResult) (h : ¬ rankComparator r1 r2 ≤ 0) :
    sortRankings [r1, r2] = [r2, r1] := by
  have hsorted := List.sorted_mergeSort rankComparator_trans rankComparator_total [r1, r2]
  obtain ⟨l₁, l₂, heq, hsplit, -⟩ := List.mergeSort_cons rankComparator_trans
    rankComparator_total r1 [r2]
  rw [List.mergeSort_singleton] at hsplit
  unfold sortRankings
  match l₁, hsplit with
  | [], hsplit =>
    exfalso
    simp only [List.nil_append] at hsplit heq
    subst hsplit
    rw [heq] at hsorted
    have := List.rel_of_pairwise_cons hsorted (List.mem_singleton.mpr rfl)
    rw [decide_eq_true_eq] at this
    exact h this
  | [x], hsplit =>
    have h2 : x = r2 ∧ l₂ = [] := by simpa using hsplit.symm
    obtain ⟨hx, hl2⟩ := h2
    subst hx hl2
    simpa using heq
  | x :: y :: rest, hsplit =>
    exfalso
    have := congrArg List.length hsplit
    simp at this

/-- C6: the ranking list emitted in the `done` event is the stable
sort of the per-agent results by the comparator chain — score
descending, then outcome priority `win(1) < stuck(2) < loss(3) <
error(4) < playing(5)` ascending, then moves ascending, then
`durationMs` ascending: the output is a permutation of the input,
pairwise ordered by the chain, sorted sublists of the input keep
their relative order (stability), and of two results with equal score
and outcomes `loss` and `stuck`, the `stuck` one ranks first. -/
theorem sortRankings_spec :
    (∀ l : List GameResult, (sortRankings l).Perm l ∧
      (sortRankings l).Pairwise (fun a b => rankComparator a b ≤ 0)) ∧
      (∀ c l : List GameResult, c.Pairwise (fun a b => rankComparator a b ≤ 0) →
        c.Sublist l → c.Sublist (sortRankings l)) ∧
      (∀ r1 r2 : GameResult, r1.score = r2.score →
        r1.outcome = GameOutcome.loss → r2.outcome = GameOutcome.stuck →
        sortRankings [r1, r2] = [r2, r1]) := by
  refine ⟨fun l => ⟨List.mergeSort_perm l _, ?_⟩, fun c l hc hsub => ?_, fun r1 r2 hs h1 h2 => ?_⟩
  · have := List.sorted_mergeSort rankComparator_trans rankComparator_total l
    exact this.imp fun hab => of_decide_eq_true hab
  · refine List.sublist_mergeSort rankComparator_trans rankComparator_total ?_ hsub
    exact hc.imp fun hab => decide_eq_true hab
  · refine sortRankings_pair r1 r2 ?_
    rw [rankComparator_le_iff, h1, h2, hs]
    simp only [outcomeOrder]
    omega

/-! ## Reveal: no-op and frame properties -/

theorem updateCell_length (b : BoardState) (r c : Nat) (f : Cell → Cell) :
    (updateCell b r c f).length = b.length := by
  unfold updateCell
  cases hb : b[r]? with
  | none => rfl
  | some rowL =>
    dsimp only
    cases hc : rowL[c]? with
    | none => rfl
    | some cell => exact List.length_set b r _

theorem updateCell_rowLength (b : BoardState) (r c : Nat) (f : Cell → Cell) (i : Nat) :
    ((updateCell b r c f)[i]?).map List.length = (b[i]?).map List.length := by
  unfold updateCell
  cases hb : b[r]? with
  | none => rfl
  | some rowL =>
    dsimp only
    cases hc : rowL[c]? with
    | none => rfl
    | some cell =>
      dsimp only
      by_cases hir : r = i
      · subst hir
        obtain ⟨hlen, -⟩ := List.getElem?_eq_some_iff.mp hb
        rw [List.getElem?_set_self hlen, hb]
        simp
      · rw [List.getElem?_set_ne hir]

theorem boardFrame_refl (b : BoardState) : boardFrame b b := by
  refine ⟨rfl, fun i => rfl, fun r c cell h => ⟨cell.isRevealed, ?_, fun hh => hh⟩⟩
  exact h

theorem boardFrame_trans {b b' b'' : BoardState} (h1 : boardFrame b b')
    (h2 : boardFrame b' b'') : boardFrame b b'' := by
  obtain ⟨hl1, hr1, hc1⟩ := h1
  obtain ⟨hl2, hr2, hc2⟩ := h2
  refine ⟨hl2.trans hl1, fun i => (hr2 i).trans (hr1 i), fun r c cell h => ?_⟩
  obtain ⟨rv1, hb', hm1⟩ := hc1 r c cell h
  obtain ⟨rv2, hb'', hm2⟩ := hc2 r c _ hb'
  exact ⟨rv2, hb'', fun hh => hm2 (hm1 hh)⟩

theorem boardFrame_updateReveal (b : BoardState) (r c : Nat) :
    boardFrame b (updateCell b r c fun cl => { cl with isRevealed := true }) := by
  refine ⟨updateCell_length b r c _, fun i => updateCell_rowLength b r c _ i,
    fun r' c' cell' hcell' => ?_⟩
  by_cases h : r = r' ∧ c = c'
  · obtain ⟨rfl, rfl⟩ := h
    rw [cellAt?_updateCell_self b r c _ cell' hcell']
    exact ⟨true, rfl, fun _ => rfl⟩
  · rw [cellAt?_updateCell_ne b r c r' c' _ h]
    exact ⟨cell'.isRevealed, hcell', fun hh => hh⟩

theorem bfsLoop_frame (rows cols : Nat) (board : BoardState) (queue : List (Nat × Nat))
    (visited : Finset (Nat × Nat)) (count : Nat) :
    boardFrame board (bfsLoop rows cols board queue visited count).1 := by
  induction board, queue, visited, count using bfsLoop.induct rows cols with
  | case1 board visited count =>
    rw [bfsLoop]
    exact boardFrame_refl board
  | case2 board visited count r c rest cell hrev ih =>
    rw [bfsLoop, if_pos hrev]
    exact ih
  | case3 board visited count r c rest cell hrev board' hzero qv ih =>
    rw [bfsLoop, if_neg hrev, if_pos hzero]
    exact boardFrame_trans (boardFrame_updateReveal board r c) ih
  | case4 board visited count r c rest cell hrev board' hzero ih =>
    rw [bfsLoop, if_neg hrev, if_neg hzero]
    exact boardFrame_trans (boardFrame_updateReveal board r c) ih

/-- C9: for every board and in-bounds cell that is already revealed
or flagged, `revealCell` returns `{revealedCount: 0, hitMine: false}`
and leaves the board unchanged; in particular a second call on the
same cell again returns `revealedCount = 0`. -/
theorem revealCell_noop (board : BoardState) (row col : Nat) (cell0 : Cell)
    (hin : cellAt? board row col = some cell0)
    (h : cell0.isRevealed = true ∨ cell0.isFlagged = true) :
    revealCell board row col = (board, 0, false) ∧
      (revealCell (revealCell board row col).1 row col).2.1 = 0 := by
  have hcell : cellAt board row col = cell0 := by
    unfold cellAt
    rw [hin]
    rfl
  have hb : ((cellAt board row col).isRevealed || (cellAt board row col).isFlagged) = true := by
    rw [hcell]
    rcases h with h | h <;> simp [h]
  have h1 : revealCell board row col = (board, 0, false) := by
    unfold revealCell
    rw [if_pos hb]
  refine ⟨h1, ?_⟩
  rw [h1, h1]

/-- Witness for C9 on a concrete 1×2 board whose cell `(0,0)` is
already revealed. -/
theorem revealCell_noop_witness :
    revealCell [[⟨0, 0, false, true, false, 1⟩, ⟨0, 1, true, false, false, 0⟩]] 0 0
        = ([[⟨0, 0, false, true, false, 1⟩, ⟨0, 1, true, false, false, 0⟩]], 0, false) ∧
      (revealCell (revealCell [[⟨0, 0, false, true, false, 1⟩,
          ⟨0, 1, true, false, false, 0⟩]] 0 0).1 0 0).2.1 = 0 :=
  revealCell_noop [[⟨0, 0, false, true, false, 1⟩, ⟨0, 1, true, false, false, 0⟩]] 0 0
    ⟨0, 0, false, true, false, 1⟩ (by decide) (Or.inl (by decide))

/-- C10: for every board and in-bounds cell, `revealCell` changes only
`isRevealed` fields, and only from `false` to `true`: the grid
dimensions and every cell's `row`, `col`, `isMine`, `isFlagged` and
`adjacentMines` are untouched (so a flagged cell revealed through
flood fill keeps `isFlagged = true`). -/
theorem revealCell_frame (board : BoardState) (row col : Nat) (cell0 : Cell)
    (hin : cellAt? board row col = some cell0) :
    boardFrame board (revealCell board row col).1 := by
  unfold revealCell
  dsimp only
  by_cases h1 : ((cellAt board row col).isRevealed || (cellAt board row col).isFlagged) = true
  · rw [if_pos h1]
    exact boardFrame_refl board
  · rw [if_neg h1]
    by_cases h2 : (cellAt board row col).isMine = true
    · rw [if_pos h2]
      exact boardFrame_updateReveal board row col
    · rw [if_neg h2]
      exact bfsLoop_frame board.length (board.headD []).length board [(row, col)]
        {(row, col)} 0

/-- Witness for C10 on a concrete 1×2 board with a flagged zero cell:
the frame relation holds for the reveal at `(0,0)`. -/
theorem revealCell_frame_witness :
    boardFrame [[⟨0, 0, false, false, true, 0⟩, ⟨0, 1, false, false, false, 0⟩]]
      (revealCell [[⟨0, 0, false, false, true, 0⟩, ⟨0, 1, false, false, false, 0⟩]] 0 1).1 :=
  revealCell_frame [[⟨0, 0, false, false, true, 0⟩, ⟨0, 1, false, false, false, 0⟩]] 0 1
    ⟨0, 1, false, false, false, 0⟩ (by decide)

/-! ## Encoding round trip -/

theorem toDigits_single : ∀ n : Nat, n < 9 → Nat.toDigits 10 n = [Nat.digitChar n] := by
  decide

theorem encodeCell_single (cell : Cell) (h8 : cell.adjacentMines ≤ 8) :
    encodeCell cell = [encodeCellChar cell] := by
  unfold encodeCell encodeCellChar
  split_ifs with h1 h2
  · rfl
  · exact toDigits_single cell.adjacentMines (by omega)
  · rfl
  · rfl

theorem encodeCellChar_ne_newline (cell : Cell) (h8 : cell.adjacentMines ≤ 8) :
    encodeCellChar cell ≠ '\n' := by
  unfold encodeCellChar
  split_ifs with h1 h2
  · decide
  · have : cell.adjacentMines < 9 := by omega
    revert this
    generalize cell.adjacentMines = n
    revert n
    decide
  · decide
  · decide

theorem decodeChar_encodeCellChar (cell : Cell) (h8 : cell.adjacentMines ≤ 8) :
    decodeChar (encodeCellChar cell) =
      (if cell.isRevealed = true then
        (if cell.isMine = true then Vis.M else Vis.num cell.adjacentMines)
      else if cell.isFlagged = true then Vis.F
      else Vis.H) := by
  unfold encodeCellChar
  split_ifs with h1 h2
  · rfl
  · have hlt : cell.adjacentMines < 9 := by omega
    revert hlt
    generalize cell.adjacentMines = n
    revert n
    decide
  · rfl
  · rfl

theorem encodeRow_map (rowL : List Cell) (h8 : ∀ cell ∈ rowL, cell.adjacentMines ≤ 8) :
    (rowL.map encodeCell).flatten = rowL.map encodeCellChar := by
  induction rowL with
  | nil => rfl
  | cons cell cells ih =>
    rw [List.map_cons, List.flatten_cons,
      encodeCell_single cell (h8 cell (List.mem_cons_self cell cells)),
      ih fun c hc => h8 c (List.mem_cons_of_mem cell hc)]
    rfl

theorem encodeBoard_splitOn (board : BoardState)
    (h8 : ∀ rowL ∈ board, ∀ cell ∈ rowL, cell.adjacentMines ≤ 8) (hne : board ≠ []) :
    (encodeBoard board).splitOn '\n' = board.map fun rowL => rowL.map encodeCellChar := by
  unfold encodeBoard
  rw [List.map_congr_left fun rowL hrow => encodeRow_map rowL (h8 rowL hrow)]
  refine List.splitOn_intercalate _ '\n' ?_ ?_
  · intro l hl
    rw [List.mem_map] at hl
    obtain ⟨rowL, hrow, rfl⟩ := hl
    intro hch
    rw [List.mem_map] at hch
    obtain ⟨cell, hcell, hch⟩ := hch
    exact encodeCellChar_ne_newline cell (h8 rowL hrow cell hcell) hch
  · intro hmap
    exact hne (List.map_eq_nil_iff.mp hmap)

/-- C8: for every `rows × cols` `BoardState` (with the data-model
invariant `adjacentMines ≤ 8`), `decodeBoard (encodeBoard board) rows
cols` agrees with `getVisibleBoard board` at every cell, except that a
revealed mine decodes to `'M'` while `getVisibleBoard` shows its
`adjacentMines` number. -/
theorem decode_encode_roundtrip (board : BoardState) (rows cols : Nat)
    (hrect : rectBoard board rows cols)
    (h8 : ∀ rowL ∈ board, ∀ cell ∈ rowL, cell.adjacentMines ≤ 8) :
    ∀ r c : Nat, ∀ cell : Cell, cellAt? board r c = some cell →
      (((decodeBoard (encodeBoard board) rows cols).getD r []).getD c Vis.H =
          (if cell.isRevealed = true ∧ cell.isMine = true then Vis.M
           else ((getVisibleBoard board).getD r []).getD c Vis.H)) ∧
        ((getVisibleBoard board).getD r []).getD c Vis.H =
          (if cell.isRevealed = true then Vis.num cell.adjacentMines
           else if cell.isFlagged = true then Vis.F
           else Vis.H) := by
  intro r c cell hin
  unfold cellAt? at hin
  cases hrow : board[r]? with
  | none => rw [hrow] at hin; simp at hin
  | some rowL =>
    rw [hrow] at hin
    simp only [Option.some_bind] at hin
    have hrowmem : rowL ∈ board := List.getElem?_mem hrow
    have hrlt : r < rows := by
      obtain ⟨hl, -⟩ := List.getElem?_eq_some_iff.mp hrow
      have := hrect.1
      omega
    have hclt : c < cols := by
      obtain ⟨hl, -⟩ := List.getElem?_eq_some_iff.mp hin
      have := hrect.2 rowL hrowmem
      omega
    have hne : board ≠ [] := by
      intro hb
      rw [hb] at hrow
      simp at hrow
    have hvis : ((getVisibleBoard board).getD r []).getD c Vis.H =
        (if cell.isRevealed = true then Vis.num cell.adjacentMines
         else if cell.isFlagged = true then Vis.F
         else Vis.H) := by
      unfold getVisibleBoard
      simp only [List.getD_eq_getElem?_getD, List.getElem?_map, hrow, hin,
        Option.map_some', Option.getD_some]
    have hdec : ((decodeBoard (encodeBoard board) rows cols).getD r []).getD c Vis.H =
        decodeChar (encodeCellChar cell) := by
      unfold decodeBoard
      simp only [encodeBoard_splitOn board h8 hne, List.getD_eq_getElem?_getD,
        List.getElem?_map, List.getElem?_range hrlt, List.getElem?_range hclt,
        hrow, hin, Option.map_some', Option.getD_some]
    have h8c : cell.adjacentMines ≤ 8 :=
      h8 rowL hrowmem cell (List.getElem?_mem hin)
    refine ⟨?_, hvis⟩
    rw [hdec, decodeChar_encodeCellChar cell h8c, hvis]
    by_cases hrev : cell.isRevealed = true
    · by_cases hmine : cell.isMine = true
      · simp [hrev, hmine]
      · simp [hrev, hmine]
    · simp [hrev]

/-- Witness for C8 on a concrete 1×2 board: the revealed mine at
`(0,0)` decodes to `'M'`. -/
theorem decode_encode_roundtrip_witness :
    ((decodeBoard (encodeBoard [[⟨0, 0, true, true, false, 0⟩,
        ⟨0, 1, false, false, true, 2⟩]]) 1 2).getD 0 []).getD 0 Vis.H = Vis.M := by
  have h := (decode_encode_roundtrip
    [[⟨0, 0, true, true, false, 0⟩, ⟨0, 1, false, false, true, 2⟩]] 1 2
    (by constructor <;> decide) (by decide) 0 0 ⟨0, 0, true, true, false, 0⟩ (by decide)).1
  rw [h]
  decide

/-! ## Flood fill -/

theorem mem_floodOffsets (d : Int × Int) (h1 : d.1.natAbs ≤ 1) (h2 : d.2.natAbs ≤ 1)
    (hne : ¬(d.1 = 0 ∧ d.2 = 0)) : d ∈ floodOffsets := by
  obtain ⟨x, y⟩ := d
  simp only at h1 h2 hne
  have hx : x = -1 ∨ x = 0 ∨ x = 1 := by omega
  have hy : y = -1 ∨ y = 0 ∨ y = 1 := by omega
  rcases hx with rfl | rfl | rfl <;> rcases hy with rfl | rfl | rfl <;>
    first
      | decide
      | exact absurd ⟨rfl, rfl⟩ hne

theorem cellAt?_eq_some_of_rect {board : BoardState} {rows cols : Nat}
    (hrect : rectBoard board rows cols) {r c : Nat} (hr : r < rows) (hc : c < cols) :
    cellAt? board r c = some (cellAt board r c) := by
  obtain ⟨hlen, hrows⟩ := hrect
  unfold cellAt? cellAt
  cases hrow : board[r]? with
  | none =>
    rw [List.getElem?_eq_none_iff] at hrow
    omega
  | some rowL =>
    simp only [Option.some_bind]
    cases hcell : rowL[c]? with
    | none =>
      rw [List.getElem?_eq_none_iff] at hcell
      have := hrows rowL (List.getElem?_mem hrow)
      omega
    | some cell =>
      unfold cellAt?
      rw [hrow]
      simp [hcell]

theorem headD_length {board : BoardState} {rows cols : Nat}
    (hrect : rectBoard board rows cols) (hpos : 0 < rows) :
    (board.headD []).length = cols := by
  obtain ⟨hlen, hrows⟩ := hrect
  cases board with
  | nil => simp at hlen; omega
  | cons rowL rest =>
    exact hrows rowL (List.mem_cons_self rowL rest)

theorem adjMineCount_zero {board : BoardState} {rows cols r c : Nat}
    (h0 : adjMineCount board rows cols r c = 0) (q : Nat × Nat)
    (hq1 : q.1 < rows) (hq2 : q.2 < cols) (hne : q ≠ (r, c))
    (hd1 : ((r : Int) - (q.1 : Int)).natAbs ≤ 1)
    (hd2 : ((c : Int) - (q.2 : Int)).natAbs ≤ 1) :
    (cellAt board q.1 q.2).isMine = false := by
  unfold adjMineCount at h0
  rw [List.length_eq_zero] at h0
  have hall := List.filter_eq_nil_iff.mp h0
  have hdmem : ((q.1 : Int) - (r : Int), (q.2 : Int) - (c : Int)) ∈ floodOffsets := by
    refine mem_floodOffsets _ ?_ ?_ ?_
    · simp only
      omega
    · simp only
      omega
    · simp only
      intro ⟨e1, e2⟩
      apply hne
      have : q.1 = r := by omega
      have : q.2 = c := by omega
      exact Prod.ext (by omega) (by omega)
  have hcond := hall _ hdmem
  simp only [Bool.and_eq_true, decide_eq_true_eq, not_and, Bool.not_eq_true] at hcond
  have e1 : (r : Int) + ((q.1 : Int) - (r : Int)) = (q.1 : Int) := by ring
  have e2 : (c : Int) + ((q.2 : Int) - (c : Int)) = (q.2 : Int) := by ring
  rw [e1, e2] at hcond
  have hfin := hcond ⟨⟨⟨by omega, by omega⟩, by omega⟩, by omega⟩
  simpa using hfin

theorem reach_inBounds {board : BoardState} {rows cols row col : Nat}
    (hrect : rectBoard board rows cols) (hrow : row < rows) (hcol : col < cols) :
    ∀ p : Nat × Nat, Reach board (row, col) p → p.1 < rows ∧ p.2 < cols := by
  intro p hp
  induction hp with
  | start => exact ⟨hrow, hcol⟩
  | step hp hzero hne hd1 hd2 hb1 hb2 ih =>
    constructor
    · rw [hrect.1] at hb1
      exact hb1
    · rw [headD_length hrect (by omega)] at hb2
      exact hb2

theorem reach_not_mine {board : BoardState} {rows cols row col : Nat}
    (hrect : rectBoard board rows cols) (hcons : consistentBoard board rows cols)
    (hrow : row < rows) (hcol : col < cols)
    (hnomine : (cellAt board row col).isMine = false) :
    ∀ p : Nat × Nat, Reach board (row, col) p → (cellAt board p.1 p.2).isMine = false := by
  intro p hp
  induction hp with
  | start => exact hnomine
  | @step p q hp hzero hne hd1 hd2 hb1 hb2 ih =>
    have hpb := reach_inBounds hrect hrow hcol p hp
    have hcnt := hcons p.1 p.2 hpb.1 hpb.2 ih
    rw [hzero] at hcnt
    refine adjMineCount_zero hcnt.symm q ?_ ?_ ?_ ?_ ?_
    · rw [hrect.1] at hb1
      exact hb1
    · rw [headD_length hrect (by omega)] at hb2
      exact hb2
    · exact fun hqp => hne (hqp ▸ rfl)
    · omega
    · omega

theorem floodOffsets_elim (d : Int × Int) (h : d ∈ floodOffsets) :
    d.1.natAbs ≤ 1 ∧ d.2.natAbs ≤ 1 ∧ ¬(d.1 = 0 ∧ d.2 = 0) := by
  have he : floodOffsets =
      [(-1, -1), (-1, 0), (-1, 1), (0, -1), (0, 1), (1, -1), (1, 0), (1, 1)] := by decide
  rw [he] at h
  simp only [List.mem_cons, List.not_mem_nil, or_false] at h
  rcases h with rfl | rfl | rfl | rfl | rfl | rfl | rfl | rfl <;>
    exact ⟨by decide, by decide, by decide⟩

theorem enqueueFold_spec (rows cols r c : Nat) :
    ∀ (ds : List (Int × Int)), (∀ d ∈ ds, d ∈ floodOffsets) →
    ∀ (Q : List (Nat × Nat)) (V : Finset (Nat × Nat)),
    ∃ E : List (Nat × Nat),
      (ds.foldl (enqueueStep rows cols r c) (Q, V)).1 = Q ++ E ∧
      (ds.foldl (enqueueStep rows cols r c) (Q, V)).2 = V ∪ E.toFinset ∧
      E.Nodup ∧
      (∀ p ∈ E, p ∉ V) ∧
      (∀ p ∈ E, p.1 < rows ∧ p.2 < cols ∧ p ≠ (r, c) ∧
        ((r : Int) - (p.1 : Int)).natAbs ≤ 1 ∧ ((c : Int) - (p.2 : Int)).natAbs ≤ 1) ∧
      (∀ d ∈ ds, 0 ≤ (r : Int) + d.1 → (r : Int) + d.1 < (rows : Int) →
        0 ≤ (c : Int) + d.2 → (c : Int) + d.2 < (cols : Int) →
        (((r : Int) + d.1).toNat, ((c : Int) + d.2).toNat) ∈
          (ds.foldl (enqueueStep rows cols r c) (Q, V)).2) := by
  intro ds
  induction ds with
  | nil =>
    intro _ Q V
    exact ⟨[], by simp, by simp, List.nodup_nil, by simp, by simp, by simp⟩
  | cons d ds ih =>
    intro hds Q V
    have hdfo : d ∈ floodOffsets := hds d (List.mem_cons_self d ds)
    have hds' : ∀ d' ∈ ds, d' ∈ floodOffsets := fun d' h => hds d' (List.mem_cons_of_mem d h)
    rw [List.foldl_cons]
    by_cases hc0 : 0 ≤ (r : Int) + d.1 ∧ (r : Int) + d.1 < (rows : Int) ∧
        0 ≤ (c : Int) + d.2 ∧ (c : Int) + d.2 < (cols : Int) ∧
        ((((r : Int) + d.1).toNat, ((c : Int) + d.2).toNat) ∉ V)
    · have hstep : enqueueStep rows cols r c (Q, V) d =
          (Q ++ [(((r : Int) + d.1).toNat, ((c : Int) + d.2).toNat)],
            insert (((r : Int) + d.1).toNat, ((c : Int) + d.2).toNat) V) := by
        simp only [enqueueStep]
        rw [if_pos hc0]
      rw [hstep]
      obtain ⟨E', h1, h2, h3, h4, h5, h6⟩ := ih hds'
        (Q ++ [(((r : Int) + d.1).toNat, ((c : Int) + d.2).toNat)])
        (insert (((r : Int) + d.1).toNat, ((c : Int) + d.2).toNat) V)
      refine ⟨(((r : Int) + d.1).toNat, ((c : Int) + d.2).toNat) :: E', ?_, ?_, ?_, ?_, ?_, ?_⟩
      · rw [h1, List.append_assoc]
        rfl
      · rw [h2]
        ext p
        simp only [Finset.mem_union, Finset.mem_insert, List.toFinset_cons, List.mem_toFinset]
        constructor
        · intro hp
          rcases hp with hp | hp
          · rcases hp with hp | hp
            · exact Or.inr (Or.inl hp)
            · exact Or.inl hp
          · exact Or.inr (Or.inr hp)
        · intro hp
          rcases hp with hp | hp | hp
          · exact Or.inl (Or.inr hp)
          · exact Or.inl (Or.inl hp)
          · exact Or.inr hp
      · refine List.nodup_cons.mpr ⟨?_, h3⟩
        intro hxE'
        exact (h4 _ hxE') (Finset.mem_insert_self _ V)
      · intro p hp
        rcases List.mem_cons.mp hp with rfl | hp
        · exact hc0.2.2.2.2
        · exact fun hpV => (h4 p hp) (Finset.mem_insert_of_mem hpV)
      · intro p hp
        rcases List.mem_cons.mp hp with rfl | hp
        · obtain ⟨ha1, ha2, ha3⟩ := floodOffsets_elim d hdfo
          obtain ⟨hb1, hb2, hb3, hb4, -⟩ := hc0
          refine ⟨by omega, by omega, ?_, by omega, by omega⟩
          intro heq
          have e1 := congrArg Prod.fst heq
          have e2 := congrArg Prod.snd heq
          simp only at e1 e2
          exact ha3 ⟨by omega, by omega⟩
        · exact h5 p hp
      · intro d' hd'
        rcases List.mem_cons.mp hd' with rfl | hd'
        · intro _ _ _ _
          rw [h2]
          exact Finset.mem_union_left _ (Finset.mem_insert_self _ V)
        · exact h6 d' hd'
    · have hstep : enqueueStep rows cols r c (Q, V) d = (Q, V) := by
        simp only [enqueueStep]
        rw [if_neg hc0]
      rw [hstep]
      obtain ⟨E', h1, h2, h3, h4, h5, h6⟩ := ih hds' Q V
      refine ⟨E', h1, h2, h3, h4, h5, ?_⟩
      intro d' hd'
      rcases List.mem_cons.mp hd' with rfl | hd'
      · intro hb1 hb2 hb3 hb4
        have hxV : (((r : Int) + d'.1).toNat, ((c : Int) + d'.2).toNat) ∈ V := by
          by_contra hnot
          exact hc0 ⟨hb1, hb2, hb3, hb4, hnot⟩
        rw [h2]
        exact Finset.mem_union_left _ hxV
      · exact h6 d' hd'

/-- The full enqueue pass: specialization of `enqueueFold_spec` to
`floodOffsets`, with the completeness direction re-stated for an
arbitrary in-bounds neighbor position. -/
theorem enqueueNeighbors_spec (rows cols r c : Nat) (Q : List (Nat × Nat))
    (V : Finset (Nat × Nat)) :
    ∃ E : List (Nat × Nat),
      (enqueueNeighbors rows cols r c (Q, V)).1 = Q ++ E ∧
      (enqueueNeighbors rows cols r c (Q, V)).2 = V ∪ E.toFinset ∧
      E.Nodup ∧
      (∀ p ∈ E, p ∉ V) ∧
      (∀ p ∈ E, p.1 < rows ∧ p.2 < cols ∧ p ≠ (r, c) ∧
        ((r : Int) - (p.1 : Int)).natAbs ≤ 1 ∧ ((c : Int) - (p.2 : Int)).natAbs ≤ 1) ∧
      (∀ q : Nat × Nat, q.1 < rows → q.2 < cols → q ≠ (r, c) →
        ((r : Int) - (q.1 : Int)).natAbs ≤ 1 → ((c : Int) - (q.2 : Int)).natAbs ≤ 1 →
        q ∈ (enqueueNeighbors rows cols r c (Q, V)).2) := by
  obtain ⟨E, h1, h2, h3, h4, h5, h6⟩ :=
    enqueueFold_spec rows cols r c floodOffsets (fun d h => h) Q V
  refine ⟨E, h1, h2, h3, h4, h5, ?_⟩
  intro q hq1 hq2 hqne hqd1 hqd2
  have hdmem : ((q.1 : Int) - (r : Int), (q.2 : Int) - (c : Int)) ∈ floodOffsets := by
    refine mem_floodOffsets _ (by simp only; omega) (by simp only; omega) ?_
    simp only
    intro ⟨e1, e2⟩
    apply hqne
    exact Prod.ext (by omega) (by omega)
  have hx := h6 _ hdmem (by simp only; omega) (by simp only; omega)
    (by simp only; omega) (by simp only; omega)
  have ex : ((((r : Int) + ((q.1 : Int) - (r : Int))).toNat,
      ((c : Int) + ((q.2 : Int) - (c : Int))).toNat) : Nat × Nat) = q := by
    refine Prod.ext ?_ ?_ <;> simp only <;> omega
  rw [ex] at hx
  exact hx

theorem set_isRevealed_eta (cell : Cell) (h : cell.isRevealed = true) :
    { cell with isRevealed := true } = cell := by
  cases cell
  simp_all

theorem cellAt_congr {b b' : BoardState} {r c : Nat}
    (h : cellAt? b r c = cellAt? b' r c) : cellAt b r c = cellAt b' r c := by
  unfold cellAt
  rw [h]

/-- The main invariant of the `revealCell` breadth-first loop: given a
well-formed queue/visited state over the original board `B₀`, the loop
ends with a set `W` of visited positions — all reachable through the
zero region of the start — such that exactly the cells of `W` have
been set revealed, every zero cell of `W` has all its in-bounds
neighbors in `W`, and the returned count is the number of `W`-cells
that were not already revealed in `B₀`. -/
theorem bfsLoop_processes (B₀ : BoardState) (rows cols row col : Nat)
    (hrect : rectBoard B₀ rows cols)
    (hrow : row < rows) (hcol : col < cols)
    (hregion : ∀ p : Nat × Nat, Reach B₀ (row, col) p →
      (cellAt B₀ p.1 p.2).adjacentMines = 0 → (cellAt B₀ p.1 p.2).isRevealed = false) :
    ∀ (b : BoardState) (Q : List (Nat × Nat)) (V : Finset (Nat × Nat)) (n : Nat),
      Q.Nodup →
      (∀ p ∈ Q, p ∈ V) →
      (∀ p ∈ V, Reach B₀ (row, col) p) →
      (∀ p : Nat × Nat, cellAt? b p.1 p.2 =
        (if p ∈ V \ Q.toFinset then
          Option.map (fun cl => { cl with isRevealed := true }) (cellAt? B₀ p.1 p.2)
        else cellAt? B₀ p.1 p.2)) →
      (∀ p : Nat × Nat, p ∈ V \ Q.toFinset → (cellAt B₀ p.1 p.2).adjacentMines = 0 →
        ∀ q : Nat × Nat, q.1 < rows → q.2 < cols → q ≠ p →
          ((p.1 : Int) - (q.1 : Int)).natAbs ≤ 1 →
          ((p.2 : Int) - (q.2 : Int)).natAbs ≤ 1 → q ∈ V) →
      n = ((V \ Q.toFinset).filter fun p => (cellAt B₀ p.1 p.2).isRevealed = false).card →
      ∃ W : Finset (Nat × Nat),
        V ⊆ W ∧
        (∀ p ∈ W, Reach B₀ (row, col) p) ∧
        (∀ p : Nat × Nat, cellAt? (bfsLoop rows cols b Q V n).1 p.1 p.2 =
          (if p ∈ W then
            Option.map (fun cl => { cl with isRevealed := true }) (cellAt? B₀ p.1 p.2)
          else cellAt? B₀ p.1 p.2)) ∧
        (∀ p : Nat × Nat, p ∈ W → (cellAt B₀ p.1 p.2).adjacentMines = 0 →
          ∀ q : Nat × Nat, q.1 < rows → q.2 < cols → q ≠ p →
            ((p.1 : Int) - (q.1 : Int)).natAbs ≤ 1 →
            ((p.2 : Int) - (q.2 : Int)).natAbs ≤ 1 → q ∈ W) ∧
        (bfsLoop rows cols b Q V n).2 =
          (W.filter fun p => (cellAt B₀ p.1 p.2).isRevealed = false).card := by
  intro b Q V n
  induction b, Q, V, n using bfsLoop.induct rows cols with
  | case1 b V n =>
    intro _ _ hVreach hboard hclosed hcount
    rw [bfsLoop]
    refine ⟨V, Finset.Subset.refl V, hVreach, ?_, ?_, ?_⟩
    · intro p
      have := hboard p
      simpa using this
    · intro p hp
      exact hclosed p (by simpa using hp)
    · simpa using hcount
  | case2 b V n r c rest cell hrev ih =>
    intro hnodup hQV hVreach hboard hclosed hcount
    rw [bfsLoop, if_pos hrev]
    obtain ⟨hrcnotrest, hrestnodup⟩ := List.nodup_cons.mp hnodup
    have hrcV : (r, c) ∈ V := hQV (r, c) (List.mem_cons_self _ _)
    have hrcreach : Reach B₀ (row, col) (r, c) := hVreach (r, c) hrcV
    obtain ⟨hrb, hcb⟩ := reach_inBounds hrect hrow hcol (r, c) hrcreach
    have hB0some : cellAt? B₀ r c = some (cellAt B₀ r c) :=
      cellAt?_eq_some_of_rect hrect hrb hcb
    have hbeq : cellAt? b r c = cellAt? B₀ r c := by
      have := hboard (r, c)
      rw [if_neg ?_] at this
      · exact this
      · intro hmem
        rw [Finset.mem_sdiff, List.mem_toFinset] at hmem
        exact hmem.2 (List.mem_cons_self _ _)
    have hcelleq : cellAt b r c = cellAt B₀ r c := cellAt_congr hbeq
    have hB0rev : (cellAt B₀ r c).isRevealed = true := by
      rw [← hcelleq]
      exact hrev
    have hPset : V \ rest.toFinset = insert (r, c) (V \ ((r, c) :: rest).toFinset) := by
      ext x
      simp only [Finset.mem_sdiff, List.mem_toFinset, Finset.mem_insert, List.mem_cons]
      constructor
      · intro ⟨hxV, hxrest⟩
        by_cases hx : x = (r, c)
        · exact Or.inl hx
        · exact Or.inr ⟨hxV, fun h => h.elim hx hxrest⟩
      · intro hx
        rcases hx with rfl | ⟨hxV, hxq⟩
        · exact ⟨hrcV, hrcnotrest⟩
        · exact ⟨hxV, fun h => hxq (Or.inr h)⟩
    refine ih hrestnodup (fun p hp => hQV p (List.mem_cons_of_mem _ hp)) hVreach ?_ ?_ ?_
    · intro p
      rw [hboard p, hPset]
      by_cases hp : p = (r, c)
      · subst hp
        rw [if_pos (Finset.mem_insert_self _ _)]
        rw [if_neg ?_]
        · rw [hB0some]
          simp only [Option.map_some']
          rw [set_isRevealed_eta _ hB0rev]
        · intro hmem
          rw [Finset.mem_sdiff, List.mem_toFinset] at hmem
          exact hmem.2 (List.mem_cons_self _ _)
      · by_cases hmem : p ∈ V \ ((r, c) :: rest).toFinset
        · rw [if_pos hmem, if_pos (Finset.mem_insert_of_mem hmem)]
        · rw [if_neg hmem, if_neg ?_]
          intro hm
          rcases Finset.mem_insert.mp hm with h | h
          · exact hp h
          · exact hmem h
    · intro p hp hzero q hq1 hq2 hqne hqd1 hqd2
      rw [hPset] at hp
      rcases Finset.mem_insert.mp hp with rfl | hp
      · exfalso
        have hfr := hregion (r, c) hrcreach hzero
        dsimp only at hfr
        rw [hfr] at hB0rev
        exact Bool.false_ne_true hB0rev
      · exact hclosed p hp hzero q hq1 hq2 hqne hqd1 hqd2
    · have hnotpred : ¬((cellAt B₀ (r, c).1 (r, c).2).isRevealed = false) := by
        dsimp only
        rw [hB0rev]
        simp
      rw [hcount, hPset, Finset.filter_insert, if_neg hnotpred]
  | case3 b V n r c rest cell hrev board' hzero qv ih =>
    intro hnodup hQV hVreach hboard hclosed hcount
    rw [bfsLoop, if_neg hrev, if_pos hzero]
    obtain ⟨hrcnotrest, hrestnodup⟩ := List.nodup_cons.mp hnodup
    have hrcV : (r, c) ∈ V := hQV (r, c) (List.mem_cons_self _ _)
    have hrcreach : Reach B₀ (row, col) (r, c) := hVreach (r, c) hrcV
    obtain ⟨hrb, hcb⟩ := reach_inBounds hrect hrow hcol (r, c) hrcreach
    have hB0some : cellAt? B₀ r c = some (cellAt B₀ r c) :=
      cellAt?_eq_some_of_rect hrect hrb hcb
    have hbeq : cellAt? b r c = cellAt? B₀ r c := by
      have := hboard (r, c)
      rw [if_neg ?_] at this
      · exact this
      · intro hmem
        rw [Finset.mem_sdiff, List.mem_toFinset] at hmem
        exact hmem.2 (List.mem_cons_self _ _)
    have hcelleq : cellAt b r c = cellAt B₀ r c := cellAt_congr hbeq
    have hB0zero : (cellAt B₀ r c).adjacentMines = 0 := by
      rw [← hcelleq]
      exact hzero
    have hB0unrev : (cellAt B₀ r c).isRevealed = false := by
      rw [← hcelleq]
      exact Bool.not_eq_true _ ▸ Bool.of_not_eq_true hrev
    obtain ⟨E, he1, he2, he3, he4, he5, he6⟩ :=
      enqueueNeighbors_spec rows cols r c rest V
    have hrcE : (r, c) ∉ E := fun h => he4 (r, c) h hrcV
    have hbsome : cellAt? b r c = some (cellAt B₀ r c) := hbeq.trans hB0some
    have hupd : cellAt? board' r c =
        some { cellAt B₀ r c with isRevealed := true } :=
      cellAt?_updateCell_self b r c _ _ hbsome
    have hPset : qv.2 \ qv.1.toFinset = insert (r, c) (V \ ((r, c) :: rest).toFinset) := by
      rw [he1, he2]
      ext x
      simp only [Finset.mem_sdiff, List.mem_toFinset, Finset.mem_insert, Finset.mem_union,
        List.mem_append, List.mem_cons]
      constructor
      · intro ⟨hxV, hxq⟩
        rcases hxV with hxV | hxE
        · by_cases hx : x = (r, c)
          · exact Or.inl hx
          · exact Or.inr ⟨hxV, fun h => h.elim hx (fun hr => hxq (Or.inl hr))⟩
        · exact absurd hxE (fun h => hxq (Or.inr h))
      · intro hx
        rcases hx with rfl | ⟨hxV, hxq⟩
        · refine ⟨Or.inl hrcV, fun h => ?_⟩
          rcases h with h | h
          · exact hrcnotrest h
          · exact hrcE h
        · refine ⟨Or.inl hxV, fun h => ?_⟩
          rcases h with h | h
          · exact hxq (Or.inr h)
          · exact he4 x h hxV
    refine Exists.imp ?_ (ih ?_ ?_ ?_ ?_ ?_ ?_)
    · intro W hW
      obtain ⟨hVW, hWreach, hWboard, hWclosed, hWcount⟩ := hW
      refine ⟨?_, hWreach, hWboard, hWclosed, hWcount⟩
      intro x hx
      apply hVW
      rw [he2]
      exact Finset.mem_union_left _ hx
    · rw [he1]
      refine List.Nodup.append hrestnodup he3 ?_
      intro x hxrest hxE
      exact he4 x hxE (hQV x (List.mem_cons_of_mem _ hxrest))
    · intro p hp
      rw [he1] at hp
      rw [he2]
      rcases List.mem_append.mp hp with hp | hp
      · exact Finset.mem_union_left _ (hQV p (List.mem_cons_of_mem _ hp))
      · exact Finset.mem_union_right _ (List.mem_toFinset.mpr hp)
    · intro p hp
      rw [he2] at hp
      rcases Finset.mem_union.mp hp with hp | hp
      · exact hVreach p hp
      · obtain ⟨hp1, hp2, hp3, hp4, hp5⟩ := he5 p (List.mem_toFinset.mp hp)
        refine Reach.step hrcreach hB0zero (fun h => hp3 h.symm) hp4 hp5 ?_ ?_
        · rw [hrect.1]
          exact hp1
        · rw [headD_length hrect (by omega)]
          exact hp2
    · intro p
      rw [hPset]
      by_cases hp : p = (r, c)
      · subst hp
        rw [if_pos (Finset.mem_insert_self _ _), hupd, hB0some]
        rfl
      · have hne : ¬(r = p.1 ∧ c = p.2) := by
          intro ⟨h1, h2⟩
          exact hp (Prod.ext h1.symm h2.symm)
        have : cellAt? board' p.1 p.2 = cellAt? b p.1 p.2 :=
          cellAt?_updateCell_ne b r c p.1 p.2 _ hne
        rw [this, hboard p]
        by_cases hmem : p ∈ V \ ((r, c) :: rest).toFinset
        · rw [if_pos hmem, if_pos (Finset.mem_insert_of_mem hmem)]
        · rw [if_neg hmem, if_neg ?_]
          intro hm
          rcases Finset.mem_insert.mp hm with h | h
          · exact hp h
          · exact hmem h
    · intro p hp hpzero q hq1 hq2 hqne hqd1 hqd2
      rw [hPset] at hp
      rw [he2]
      rcases Finset.mem_insert.mp hp with rfl | hp
      · exact he2 ▸ he6 q hq1 hq2 hqne hqd1 hqd2
      · have hqV : q ∈ V :=
          hclosed p hp hpzero q hq1 hq2 hqne hqd1 hqd2
        exact Finset.mem_union_left _ hqV
    · have hnotmem : (r, c) ∉ (V \ ((r, c) :: rest).toFinset).filter
          (fun p => (cellAt B₀ p.1 p.2).isRevealed = false) := by
        intro hmem
        rw [Finset.mem_filter, Finset.mem_sdiff, List.mem_toFinset] at hmem
        exact hmem.1.2 (List.mem_cons_self _ _)
      rw [hcount, hPset, Finset.filter_insert, if_pos hB0unrev,
        Finset.card_insert_of_not_mem hnotmem]
  | case4 b V n r c rest cell hrev board' hzero ih =>
    intro hnodup hQV hVreach hboard hclosed hcount
    rw [bfsLoop, if_neg hrev, if_neg hzero]
    obtain ⟨hrcnotrest, hrestnodup⟩ := List.nodup_cons.mp hnodup
    have hrcV : (r, c) ∈ V := hQV (r, c) (List.mem_cons_self _ _)
    have hrcreach : Reach B₀ (row, col) (r, c) := hVreach (r, c) hrcV
    obtain ⟨hrb, hcb⟩ := reach_inBounds hrect hrow hcol (r, c) hrcreach
    have hB0some : cellAt? B₀ r c = some (cellAt B₀ r c) :=
      cellAt?_eq_some_of_rect hrect hrb hcb
    have hbeq : cellAt? b r c = cellAt? B₀ r c := by
      have := hboard (r, c)
      rw [if_neg ?_] at this
      · exact this
      · intro hmem
        rw [Finset.mem_sdiff, List.mem_toFinset] at hmem
        exact hmem.2 (List.mem_cons_self _ _)
    have hcelleq : cellAt b r c = cellAt B₀ r c := cellAt_congr hbeq
    have hB0zero : (cellAt B₀ r c).adjacentMines ≠ 0 := by
      rw [← hcelleq]
      exact hzero
    have hB0unrev : (cellAt B₀ r c).isRevealed = false := by
      rw [← hcelleq]
      exact Bool.not_eq_true _ ▸ Bool.of_not_eq_true hrev
    have hbsome : cellAt? b r c = some (cellAt B₀ r c) := hbeq.trans hB0some
    have hupd : cellAt? board' r c =
        some { cellAt B₀ r c with isRevealed := true } :=
      cellAt?_updateCell_self b r c _ _ hbsome
    have hPset : V \ rest.toFinset = insert (r, c) (V \ ((r, c) :: rest).toFinset) := by
      ext x
      simp only [Finset.mem_sdiff, List.mem_toFinset, Finset.mem_insert, List.mem_cons]
      constructor
      · intro ⟨hxV, hxrest⟩
        by_cases hx : x = (r, c)
        · exact Or.inl hx
        · exact Or.inr ⟨hxV, fun h => h.elim hx hxrest⟩
      · intro hx
        rcases hx with rfl | ⟨hxV, hxq⟩
        · exact ⟨hrcV, hrcnotrest⟩
        · exact ⟨hxV, fun h => hxq (Or.inr h)⟩
    refine Exists.imp ?_ (ih hrestnodup
      (fun p hp => hQV p (List.mem_cons_of_mem _ hp)) hVreach ?_ ?_ ?_)
    · intro W hW
      exact hW
    · intro p
      rw [hPset]
      by_cases hp : p = (r, c)
      · subst hp
        rw [if_pos (Finset.mem_insert_self _ _), hupd, hB0some]
        rfl
      · have hne : ¬(r = p.1 ∧ c = p.2) := by
          intro ⟨h1, h2⟩
          exact hp (Prod.ext h1.symm h2.symm)
        have : cellAt? board' p.1 p.2 = cellAt? b p.1 p.2 :=
          cellAt?_updateCell_ne b r c p.1 p.2 _ hne
        rw [this, hboard p]
        by_cases hmem : p ∈ V \ ((r, c) :: rest).toFinset
        · rw [if_pos hmem, if_pos (Finset.mem_insert_of_mem hmem)]
        · rw [if_neg hmem, if_neg ?_]
          intro hm
          rcases Finset.mem_insert.mp hm with h | h
          · exact hp h
          · exact hmem h
    · intro p hp hpzero q hq1 hq2 hqne hqd1 hqd2
      rw [hPset] at hp
      rcases Finset.mem_insert.mp hp with rfl | hp
      · exact absurd hpzero hB0zero
      · exact hclosed p hp hpzero q hq1 hq2 hqne hqd1 hqd2
    · have hnotmem : (r, c) ∉ (V \ ((r, c) :: rest).toFinset).filter
          (fun p => (cellAt B₀ p.1 p.2).isRevealed = false) := by
        intro hmem
        rw [Finset.mem_filter, Finset.mem_sdiff, List.mem_toFinset] at hmem
        exact hmem.1.2 (List.mem_cons_self _ _)
      rw [hcount, hPset, Finset.filter_insert, if_pos hB0unrev,
        Finset.card_insert_of_not_mem hnotmem]

theorem mem_gridFinset (rows cols : Nat) (p : Nat × Nat) :
    p ∈ gridFinset rows cols ↔ p.1 < rows ∧ p.2 < cols := by
  unfold gridFinset
  rw [Finset.mem_product, Finset.mem_range, Finset.mem_range]

/-- C5 (amended): on a rectangular, consistent board, revealing an
unrevealed, unflagged, non-mine cell with `adjacentMines = 0` whose
connected zero region contains no already-revealed zero cell reveals
exactly the cells reachable through the zero region — the whole region
plus its bordering cells (`Reach`) — reveals no mine (no reachable
cell is a mine), reports `hitMine = false`, and returns
`revealedCount` equal to the number of cells newly revealed by the
call. -/
theorem revealCell_floodFill (board : BoardState) (rows cols row col : Nat)
    (hrect : rectBoard board rows cols)
    (hcons : consistentBoard board rows cols)
    (hrow : row < rows) (hcol : col < cols)
    (hunrev : (cellAt board row col).isRevealed = false)
    (hunflag : (cellAt board row col).isFlagged = false)
    (hnomine : (cellAt board row col).isMine = false)
    (hzero : (cellAt board row col).adjacentMines = 0)
    (hregion : ∀ p : Nat × Nat, Reach board (row, col) p →
      (cellAt board p.1 p.2).adjacentMines = 0 →
      (cellAt board p.1 p.2).isRevealed = false) :
    (revealCell board row col).2.2 = false ∧
      (∀ p : Nat × Nat, Reach board (row, col) p → (cellAt board p.1 p.2).isMine = false) ∧
      (∀ p : Nat × Nat, p.1 < rows → p.2 < cols →
        ((cellAt (revealCell board row col).1 p.1 p.2).isRevealed = true ↔
          ((cellAt board p.1 p.2).isRevealed = true ∨ Reach board (row, col) p))) ∧
      (revealCell board row col).2.1 =
        ((gridFinset rows cols).filter fun p =>
          (cellAt (revealCell board row col).1 p.1 p.2).isRevealed = true ∧
            (cellAt board p.1 p.2).isRevealed = false).card := by
  have hc1 : ¬(((cellAt board row col).isRevealed || (cellAt board row col).isFlagged) = true) := by
    rw [hunrev, hunflag]
    simp
  have hc2 : ¬((cellAt board row col).isMine = true) := by
    rw [hnomine]
    simp
  have hred : revealCell board row col =
      ((bfsLoop rows cols board [(row, col)] {(row, col)} 0).1,
        (bfsLoop rows cols board [(row, col)] {(row, col)} 0).2, false) := by
    simp only [revealCell]
    rw [if_neg hc1, if_neg hc2, hrect.1, headD_length hrect (by omega)]
  obtain ⟨W, hVW, hWreach, hWboard, hWclosed, hWcount⟩ :=
    bfsLoop_processes board rows cols row col hrect hrow hcol hregion
      board [(row, col)] {(row, col)} 0
      (by simp)
      (by intro p hp; simpa using List.mem_singleton.mp hp)
      (by
        intro p hp
        rw [Finset.mem_singleton] at hp
        subst hp
        exact Reach.start)
      (by
        intro p
        rw [if_neg ?_]
        intro hmem
        rw [Finset.mem_sdiff] at hmem
        exact hmem.2 (by simpa using hmem.1)
      )
      (by
        intro p hp
        exfalso
        rw [Finset.mem_sdiff] at hp
        exact hp.2 (by simpa using hp.1))
      (by
        rw [show ({(row, col)} : Finset (Nat × Nat)) \ [(row, col)].toFinset = ∅ by
          ext x
          simp]
        simp)
  have hsW : (row, col) ∈ W := hVW (Finset.mem_singleton_self _)
  have hreachW : ∀ p : Nat × Nat, Reach board (row, col) p → p ∈ W := by
    intro p hp
    induction hp with
    | start => exact hsW
    | @step p q hp hz hne hd1 hd2 hb1 hb2 ih =>
      refine hWclosed p ih hz q ?_ ?_ (Ne.symm hne) hd1 hd2
      · rw [← hrect.1]
        exact hb1
      · rw [← headD_length hrect (by omega)]
        exact hb2
  have hWiff : ∀ p : Nat × Nat, p ∈ W ↔ Reach board (row, col) p :=
    fun p => ⟨hWreach p, hreachW p⟩
  have hafter : ∀ p : Nat × Nat, p.1 < rows → p.2 < cols →
      (cellAt (bfsLoop rows cols board [(row, col)] {(row, col)} 0).1 p.1 p.2).isRevealed =
        (if p ∈ W then true else (cellAt board p.1 p.2).isRevealed) := by
    intro p h1 h2
    have hsome := cellAt?_eq_some_of_rect hrect h1 h2
    have hb := hWboard p
    by_cases hw : p ∈ W
    · rw [if_pos hw] at hb
      rw [if_pos hw]
      unfold cellAt
      rw [hb, hsome]
      rfl
    · rw [if_neg hw] at hb
      rw [if_neg hw]
      unfold cellAt
      rw [hb]
  refine ⟨by rw [hred], reach_not_mine hrect hcons hrow hcol hnomine, ?_, ?_⟩
  · intro p h1 h2
    rw [hred]
    dsimp only
    rw [hafter p h1 h2]
    by_cases hw : p ∈ W
    · rw [if_pos hw]
      simp [hWiff p |>.mp hw]
    · rw [if_neg hw]
      constructor
      · exact Or.inl
      · intro h
        rcases h with h | h
        · exact h
        · exact absurd h (fun hh => hw (hreachW p hh))
  · rw [hred]
    dsimp only
    rw [hWcount]
    congr 1
    ext p
    rw [Finset.mem_filter, Finset.mem_filter, mem_gridFinset]
    constructor
    · intro ⟨hpW, hpunrev⟩
      have hreach := hWreach p hpW
      have hb := reach_inBounds hrect hrow hcol p hreach
      refine ⟨hb, ?_, hpunrev⟩
      rw [hafter p hb.1 hb.2, if_pos hpW]
    · intro ⟨hb, hprev, hpunrev⟩
      refine ⟨?_, hpunrev⟩
      rw [hafter p hb.1 hb.2] at hprev
      by_cases hw : p ∈ W
      · exact hw
      · rw [if_neg hw] at hprev
        rw [hprev] at hpunrev
        exact absurd hpunrev (by simp)

/-- Witness for C5 (amended) on a concrete all-hidden mine-free 1×1
board: the reveal reports no mine hit, and the cell `(0,0)` is
revealed afterwards (it is the start of its own region). -/
theorem revealCell_floodFill_witness :
    (revealCell [[⟨0, 0, false, false, false, 0⟩]] 0 0).2.2 = false ∧
      ((cellAt (revealCell [[⟨0, 0, false, false, false, 0⟩]] 0 0).1 0 0).isRevealed = true ↔
        ((cellAt [[⟨0, 0, false, false, false, 0⟩]] 0 0).isRevealed = true ∨
          Reach [[⟨0, 0, false, false, false, 0⟩]] (0, 0) (0, 0))) := by
  have hcons : consistentBoard [[⟨0, 0, false, false, false, 0⟩]] 1 1 := by
    intro r c hr hc hm
    interval_cases r
    interval_cases c
    decide
  have hregion : ∀ p : Nat × Nat, Reach [[⟨0, 0, false, false, false, 0⟩]] (0, 0) p →
      (cellAt [[⟨0, 0, false, false, false, 0⟩]] p.1 p.2).adjacentMines = 0 →
      (cellAt [[⟨0, 0, false, false, false, 0⟩]] p.1 p.2).isRevealed = false := by
    intro p _ _
    obtain ⟨r, c⟩ := p
    cases r with
    | zero =>
      cases c with
      | zero => decide
      | succ c => rfl
    | succ r => rfl
  have h := revealCell_floodFill [[⟨0, 0, false, false, false, 0⟩]] 1 1 0 0
    (by constructor <;> decide) hcons (by decide) (by decide)
    (by decide) (by decide) (by decide) (by decide) hregion
  exact ⟨h.1, h.2.2.1 (0, 0) (by decide) (by decide)⟩

/-- C5, counterexample to the claim as stated (over every board): on
`blockedBoard` — a 1×3 mine-free board whose three cells all have
`adjacentMines = 0` and whose middle cell is already revealed — the
cell `(0,2)` belongs to the connected zero region of `(0,0)`, the
start cell satisfies every premise of the claim, the board is
rectangular and consistent, yet `revealCell` at `(0,0)` leaves
`(0,2)` unrevealed: the already-revealed zero cell `(0,1)` is dequeued
and skipped without enqueueing its neighbors. -/
theorem revealCell_floodFill_cex :
    Reach blockedBoard (0, 0) (0, 2) ∧
      (cellAt blockedBoard 0 0).isRevealed = false ∧
      (cellAt blockedBoard 0 0).isFlagged = false ∧
      (cellAt blockedBoard 0 0).isMine = false ∧
      (cellAt blockedBoard 0 0).adjacentMines = 0 ∧
      rectBoard blockedBoard 1 3 ∧
      consistentBoard blockedBoard 1 3 ∧
      (cellAt (revealCell blockedBoard 0 0).1 0 2).isRevealed = false := by
  have hreach1 : Reach blockedBoard (0, 0) (0, 1) :=
    Reach.step Reach.start (by decide) (by decide) (by decide) (by decide)
      (by decide) (by decide)
  have hreach2 : Reach blockedBoard (0, 0) (0, 2) :=
    Reach.step hreach1 (by decide) (by decide) (by decide) (by decide)
      (by decide) (by decide)
  have hcons : consistentBoard blockedBoard 1 3 := by
    intro r c hr hc hm
    interval_cases r
    interval_cases c <;> decide
  have hb1 : updateCell blockedBoard 0 0 (fun cl => { cl with isRevealed := true }) =
      [[⟨0, 0, false, true, false, 0⟩, ⟨0, 1, false, true, false, 0⟩,
        ⟨0, 2, false, false, false, 0⟩]] := by decide
  have hq1 : (enqueueNeighbors 1 3 0 0 ([], {(0, 0)})).1 = [(0, 1)] := by decide
  have hv1 : (enqueueNeighbors 1 3 0 0 ([], {(0, 0)})).2 = {(0, 0), (0, 1)} := by decide
  have hbfs : (bfsLoop 1 3 blockedBoard [(0, 0)] {(0, 0)} 0).1 =
      [[⟨0, 0, false, true, false, 0⟩, ⟨0, 1, false, true, false, 0⟩,
        ⟨0, 2, false, false, false, 0⟩]] := by
    rw [bfsLoop, if_neg (by decide), if_pos (by decide)]
    dsimp only
    rw [hq1, hv1, hb1]
    rw [bfsLoop, if_pos (by decide)]
    rw [bfsLoop]
  have hrev : (revealCell blockedBoard 0 0).1 =
      [[⟨0, 0, false, true, false, 0⟩, ⟨0, 1, false, true, false, 0⟩,
        ⟨0, 2, false, false, false, 0⟩]] := by
    simp only [revealCell]
    rw [if_neg (by decide), if_neg (by decide)]
    exact hbfs
  refine ⟨hreach2, by decide, by decide, by decide, by decide,
    by constructor <;> decide, hcons, ?_⟩
  rw [hrev]
  decide

/-! ## The batch-move retry gap -/

/-- C2 (failing execution): after one successful turn (a `flag` on
`(0,0)` which also lazily creates the board), a `makeMoves` batch
whose first move targets the now-flag-blocked cell `(0,0)` executes
zero moves, yet its tool call returns normally: the attempt leaves the
simulation state, the retry counter and the `moveSuccessful` flag all
unchanged, so the inner `while (retries < MAX_RETRIES &&
!moveSuccessful)` loop of `runModelSimulation` repeats the identical
attempt forever if the agent keeps sending this batch — the loop is
not bounded by `MAX_MOVES × MAX_RETRIES`. -/
theorem makeMovesBatch_no_progress :
    attemptStep ⟨3, 3, 2⟩ 0 (executeMakeMove ⟨3, 3, 2⟩ 0 simInit ⟨MoveAction.flag, 0, 0⟩).1 0
        (AgentResponse.makeMovesBatch [⟨MoveAction.reveal, 0, 0⟩])
      = ((executeMakeMove ⟨3, 3, 2⟩ 0 simInit ⟨MoveAction.flag, 0, 0⟩).1, 0, false) ∧
      (executeMakeMove ⟨3, 3, 2⟩ 0 simInit ⟨MoveAction.flag, 0, 0⟩).1.outcome
        = GameOutcome.playing ∧
      (executeMakeMove ⟨3, 3, 2⟩ 0 simInit ⟨MoveAction.flag, 0, 0⟩).2 = false := by
  refine ⟨?_, by decide, by decide⟩
  decide

/-- Witness for C6: applying the ranking theorem to two concrete
equal-score results with outcomes `loss` and `stuck` puts the `stuck`
result first. -/
theorem sortRankings_spec_witness :
    sortRankings [⟨"a", GameOutcome.loss, 42, 5, 900, 30, 71, 1⟩,
        ⟨"b", GameOutcome.stuck, 42, 7, 300, 30, 71, 0⟩] =
      [⟨"b", GameOutcome.stuck, 42, 7, 300, 30, 71, 0⟩,
        ⟨"a", GameOutcome.loss, 42, 5, 900, 30, 71, 1⟩] :=
  sortRankings_spec.2.2 ⟨"a", GameOutcome.loss, 42, 5, 900, 30, 71, 1⟩
    ⟨"b", GameOutcome.stuck, 42, 7, 300, 30, 71, 0⟩ rfl rfl rfl

end Minesweeper
